import Mathlib

/-!
Shallow embedding of VanGit.py (a minimal content-addressed version-control
backend) and proofs about its specification claims.

Modelling conventions, used consistently below:
* Python byte strings and Python str values are both modelled as lists of
  natural numbers (one element per byte); Python str values are identified
  with their UTF-8 byte encodings.  UTF-8 is order-preserving, so the
  lexicographic order on byte lists coincides with the code-point order
  Python uses to sort str values.
* Python str.split() and str.strip() split and strip on whitespace; the model
  implements the whitespace set of the ASCII plane (tab, LF, VT, FF, CR,
  FS, GS, RS, US, space).  All theorem hypotheses below confine path and kind
  data to non-whitespace ASCII bytes, where the byte-level model agrees
  exactly with Python semantics.
* struct.pack and struct.unpack with big-endian formats are modelled
  arithmetically through division and remainder by powers of 256; struct.pack
  raises on out-of-range arguments, modelled by an explicit range check.
* zlib.compress / zlib.decompress form a bijective codec; the object-store
  model stores the uncompressed image of each file, so byte-for-byte equality
  of stored values corresponds to equality of the on-disk compressed files.
* hashlib.sha1 is implemented in full (FIPS 180 SHA-1) over byte lists.
-/

/-- Byte strings: one natural number per byte. -/
abbrev Bytes := List Nat

/-- Whitespace bytes recognised by Python str.split / str.strip within the
ASCII plane: tab, LF, VT, FF, CR, FS, GS, RS, US and space. -/
def isWs (b : Nat) : Bool :=
  b == 9 || b == 10 || b == 11 || b == 12 || b == 13 ||
  b == 28 || b == 29 || b == 30 || b == 31 || b == 32

/-- Lexicographic comparison of byte strings, mirroring how Python compares
bytes objects and (through the UTF-8 identification) str values. -/
def bytesLe : Bytes → Bytes → Bool
  | [], _ => true
  | _ :: _, [] => false
  | a :: as, b :: bs => a < b || (a == b && bytesLe as bs)

/-- The comparison used when sorting lists of paths. -/
def bytesLeP (a b : Bytes) : Prop := bytesLe a b = true

instance : DecidableRel bytesLeP := fun a b =>
  decidable_of_iff (bytesLe a b = true) Iff.rfl

/-- Index of the first NUL byte, mirroring bytes.find / bytes.index. -/
def findNul : Bytes → Option Nat
  | [] => none
  | 0 :: _ => some 0
  | _ :: t => (findNul t).map (· + 1)

/-- Accumulator-style worker for splitting on whitespace; the first argument
is the remaining input, the second the current token reversed. -/
def splitWsAux : Bytes → Bytes → List Bytes
  | [], tok => if tok = [] then [] else [tok.reverse]
  | b :: t, tok =>
    if isWs b then
      if tok = [] then splitWsAux t [] else tok.reverse :: splitWsAux t []
    else splitWsAux t (b :: tok)

/-- Python str.split() with no arguments: split on whitespace runs, dropping
leading and trailing whitespace. -/
def splitWs (l : Bytes) : List Bytes := splitWsAux l []

/-- Digits of a number in the given base, most significant first, prepended to
the accumulator.  The fuel argument only drives termination; any fuel of at
least n + 1 yields the digits of n. -/
def digAux (base : Nat) : Nat → Nat → List Nat → List Nat
  | 0, _, acc => acc
  | f + 1, n, acc =>
    if n < base then n :: acc else digAux base f (n / base) (n % base :: acc)

/-- ASCII decimal representation of a number, as produced by Python str(n). -/
def decBytes (n : Nat) : Bytes := (digAux 10 (n + 1) n []).map (· + 48)

/-- ASCII octal representation of a number, as produced by format(n, 'o'). -/
def octBytes (n : Nat) : Bytes := (digAux 8 (n + 1) n []).map (· + 48)

/-- Value of a digit list, most significant first. -/
def digVal (base : Nat) (ds : List Nat) : Nat :=
  ds.foldl (fun a d => a * base + d) 0

/-- Decimal parse of a byte string, mirroring Python int(s).  Python int is
more lenient (it also accepts signs, underscores and surrounding whitespace);
the model covers the plain-digit strings that arise in this program. -/
def parseDec (s : Bytes) : Option Nat :=
  if s ≠ [] ∧ s.all (fun b => 48 ≤ b ∧ b ≤ 57) then
    some (digVal 10 (s.map (· - 48)))
  else none

/-- Octal parse of a byte string, mirroring Python int(s, 8) on the
plain-digit strings that arise in this program. -/
def parseOct (s : Bytes) : Option Nat :=
  if s ≠ [] ∧ s.all (fun b => 48 ≤ b ∧ b ≤ 55) then
    some (digVal 8 (s.map (· - 48)))
  else none

/-- Big-endian 4-byte encoding of a 32-bit value (struct format !L). -/
def u32 (n : Nat) : Bytes :=
  [n / 2 ^ 24 % 256, n / 2 ^ 16 % 256, n / 2 ^ 8 % 256, n % 256]

/-- Big-endian 2-byte encoding of a 16-bit value (struct format !H). -/
def u16 (n : Nat) : Bytes := [n / 256 % 256, n % 256]

/-- Big-endian decoding of a 4-byte string. -/
def u32dec (l : Bytes) : Nat :=
  ((l.getD 0 0 * 256 + l.getD 1 0) * 256 + l.getD 2 0) * 256 + l.getD 3 0

/-- Big-endian decoding of a 2-byte string. -/
def u16dec (l : Bytes) : Nat := l.getD 0 0 * 256 + l.getD 1 0

/-- Lowercase hex digit for a value below 16 (Python hex formatting). -/
def hexDigit (d : Nat) : Nat := if d < 10 then 48 + d else 87 + d

/-- Lowercase hex expansion of a byte string, as produced by bytes.hex(). -/
def hexBytes (l : Bytes) : Bytes :=
  (l.map (fun b => [hexDigit (b / 16), hexDigit (b % 16)])).flatten

/-- Inverse of hex expansion, as used by bytes.fromhex(). -/
def hexVal (c : Nat) : Nat := if c < 58 then c - 48 else c - 87

/-- Raw bytes of a lowercase hex string (bytes.fromhex). -/
def unhexBytes : Bytes → Bytes
  | c1 :: c2 :: t => (hexVal c1 * 16 + hexVal c2) :: unhexBytes t
  | _ => []

/-- Python str.strip(): drop whitespace from both ends. -/
def stripBytes (l : Bytes) : Bytes :=
  ((l.dropWhile isWs).reverse.dropWhile isWs).reverse

/-! ### SHA-1 (hashlib.sha1), FIPS 180 over byte lists -/

/-- Left rotation of a 32-bit word.  For x below 2 to the 32 and n at most 32
this is the standard bitwise rotation (the two summands occupy disjoint bit
ranges). -/
def rotl (n x : Nat) : Nat := x * 2 ^ n % 2 ^ 32 + x / 2 ^ (32 - n)

/-- Bitwise complement within 32 bits. -/
def not32 (x : Nat) : Nat := 2 ^ 32 - 1 - x % 2 ^ 32

/-- SHA-1 padding: append 0x80, zeros to 56 mod 64, then the bit length as an
8-byte big-endian number. -/
def sha1Pad (m : Bytes) : Bytes :=
  let L := m.length
  let k := (120 - (L + 1) % 64) % 64
  let w := 8 * L
  m ++ 128 :: List.replicate k 0 ++
    [w / 2 ^ 56 % 256, w / 2 ^ 48 % 256, w / 2 ^ 40 % 256, w / 2 ^ 32 % 256,
     w / 2 ^ 24 % 256, w / 2 ^ 16 % 256, w / 2 ^ 8 % 256, w % 256]

/-- Split a byte list into chunks of 64; the fuel argument only drives
termination and is taken to be the length of the list. -/
def chunks64 : Nat → Bytes → List Bytes
  | 0, _ => []
  | _ + 1, [] => []
  | f + 1, l => l.take 64 :: chunks64 f (l.drop 64)

/-- Pack bytes into big-endian 32-bit words, four bytes per word. -/
def words32 : Bytes → List Nat
  | b0 :: b1 :: b2 :: b3 :: rest =>
    (((b0 * 256 + b1) * 256 + b2) * 256 + b3) :: words32 rest
  | _ => []

/-- Message-schedule extension: the first argument is the list of schedule
words produced so far, most recent first; the second counts the words still
to be produced. -/
def sha1Sched (rev : List Nat) : Nat → List Nat
  | 0 => rev.reverse
  | c + 1 =>
    sha1Sched
      (rotl 1 (rev.getD 2 0 ^^^ rev.getD 7 0 ^^^ rev.getD 13 0 ^^^ rev.getD 15 0)
        :: rev) c

/-- One SHA-1 round: state is the five working words. -/
def sha1Round (st : Nat × Nat × Nat × Nat × Nat) (iw : Nat × Nat) :
    Nat × Nat × Nat × Nat × Nat :=
  let (a, b, c, d, e) := st
  let (i, w) := iw
  let f :=
    if i < 20 then b &&& c ||| (not32 b &&& d)
    else if i < 40 then b ^^^ c ^^^ d
    else if i < 60 then b &&& c ||| (b &&& d) ||| (c &&& d)
    else b ^^^ c ^^^ d
  let k :=
    if i < 20 then 0x5A827999
    else if i < 40 then 0x6ED9EBA1
    else if i < 60 then 0x8F1BBCDC
    else 0xCA62C1D6
  ((rotl 5 a + f + e + k + w) % 2 ^ 32, a, rotl 30 b, c, d)

/-- Process one 64-byte chunk, updating the five hash words. -/
def sha1Chunk (h : Nat × Nat × Nat × Nat × Nat) (chunk : Bytes) :
    Nat × Nat × Nat × Nat × Nat :=
  let ws := sha1Sched (words32 chunk).reverse 64
  let (h0, h1, h2, h3, h4) := h
  let (a, b, c, d, e) := (ws.enum.foldl sha1Round (h0, h1, h2, h3, h4))
  ((h0 + a) % 2 ^ 32, (h1 + b) % 2 ^ 32, (h2 + c) % 2 ^ 32,
   (h3 + d) % 2 ^ 32, (h4 + e) % 2 ^ 32)

/-- Big-endian bytes of one 32-bit hash word. -/
def wordBytes (w : Nat) : Bytes :=
  [w / 2 ^ 24 % 256, w / 2 ^ 16 % 256, w / 2 ^ 8 % 256, w % 256]

/-- The five hash words after processing all chunks of the padded message. -/
def sha1Core (m : Bytes) : Nat × Nat × Nat × Nat × Nat :=
  (chunks64 (sha1Pad m).length (sha1Pad m)).foldl sha1Chunk
    (0x67452301, 0xEFCDAB89, 0x98BADCFE, 0x10325476, 0xC3D2E1F0)

/-- SHA-1 digest (20 raw bytes) of a byte string: hashlib.sha1(m).digest(). -/
def sha1 (m : Bytes) : Bytes :=
  wordBytes (sha1Core m).1 ++ wordBytes (sha1Core m).2.1 ++
    wordBytes (sha1Core m).2.2.1 ++ wordBytes (sha1Core m).2.2.2.1 ++
    wordBytes (sha1Core m).2.2.2.2

/-- SHA-1 digest as a 40-byte lowercase hex string:
hashlib.sha1(m).hexdigest(). -/
def sha1Hex (m : Bytes) : Bytes := hexBytes (sha1 m)

/-! ### Errors

One constructor per distinct failure mode of the Python source: the ValueError
raised by find_object for a short prefix, for no match and for several matches;
the FileNotFoundError that os.listdir raises when the shard directory is
absent; the AssertionError of read_object on a size mismatch (CorruptObject in
the specification); the AssertionErrors of read_index on checksum, signature,
version and entry count; struct.error; generic ValueError / AssertionError;
the AssertionError of write_tree on a nested path; the AssertionError of add
on an over-long path; and the struct.error raised by struct.pack on an
out-of-range field. -/
inductive GitError where
  | invalidPfx
  | notFound
  | ambiguousPfx
  | fsNotFound
  | corruptObject
  | badChecksum
  | badSignature
  | badVersion
  | badEntryCount
  | structErr
  | valueErr
  | assertFail
  | nestedTree
  | pathTooLong
  | packRange
deriving DecidableEq, Repr

/-! ### Object store (hash_object, find_object, read_object) -/

/-- Byte literal: blob. -/
def blobKind : Bytes := [98, 108, 111, 98]

/-- Byte literal: tree. -/
def treeKind : Bytes := [116, 114, 101, 101]

/-- Byte literal: commit. -/
def commitKind : Bytes := [99, 111, 109, 109, 105, 116]

/-- Header-framed object image, the string hashed and stored by hash_object:
kind, one space, the decimal payload length, one NUL byte, the payload. -/
def fullData (kind payload : Bytes) : Bytes :=
  kind ++ [32] ++ decBytes payload.length ++ [0] ++ payload

/-- The object store: one element per file under .git/objects, keyed by the
40-character hex digest whose first two characters name the shard directory
and whose remainder names the file.  The stored value is the uncompressed
image of the file contents (zlib compression is a bijection, so equality of
stored values is equality of on-disk files). -/
abbrev Store := List (Bytes × Bytes)

/-- os.path.exists on the sharded object path of a digest. -/
def storeHas (st : Store) (d : Bytes) : Bool := st.any (fun o => o.1 == d)

/-- hash_object: computes the hex digest of the framed payload and, when
write is set and no file for that digest exists yet, creates the file.
Returns the digest in either case. -/
def hash_object (data kind : Bytes) (write : Bool) (st : Store) :
    Bytes × Store :=
  let full := fullData kind data
  let d := sha1Hex full
  if write && !storeHas st d then (d, st ++ [(d, full)]) else (d, st)

/-- Existence of a shard directory .git/objects/xy: hash_object creates it on
demand when writing an object whose digest starts with xy, and nothing ever
removes it, so it exists exactly when some stored object lies in it. -/
def shardExists (st : Store) (shard : Bytes) : Bool :=
  st.any (fun o => o.1.take 2 == shard)

/-- The objects whose digest starts with the given hex string: the listing of
the shard directory filtered by name, as in find_object. -/
def objMatches (pfx : Bytes) (st : Store) : Store :=
  st.filter (fun o =>
    o.1.take 2 == pfx.take 2 && (pfx.drop 2).isPrefixOf (o.1.drop 2))

/-- find_object: resolves a hex-digest prefix to the stored object.  A prefix
shorter than 2 raises ValueError; os.listdir on an absent shard directory
raises FileNotFoundError; no match and several matches raise ValueError. -/
def find_object (pfx : Bytes) (st : Store) : Except GitError (Bytes × Bytes) :=
  if pfx.length < 2 then .error .invalidPfx
  else if !shardExists st (pfx.take 2) then .error .fsNotFound
  else
    match objMatches pfx st with
    | [] => .error .notFound
    | [o] => .ok o
    | _ => .error .ambiguousPfx

/-- read_object: find the file, decompress it, split the header at the first
NUL, parse kind and declared size, and check the declared size against the
actual payload length. -/
def read_object (pfx : Bytes) (st : Store) : Except GitError (Bytes × Bytes) :=
  match find_object pfx st with
  | .error e => .error e
  | .ok o =>
  let full := o.2
  match findNul full with
  | none => .error .valueErr
  | some j =>
    match splitWs (full.take j) with
    | [t, szs] =>
      match parseDec szs with
      | some sz =>
        let data := full.drop (j + 1)
        if sz = data.length then .ok (t, data) else .error .corruptObject
      | none => .error .valueErr
    | _ => .error .valueErr

/-! ### Index entries and the index file codec -/

/-- One index entry, with the fields of the IndexEntry namedtuple.  The sha1
field holds the 20 raw digest bytes; the path holds the UTF-8 bytes of the
path string. -/
structure IndexEntry where
  ctime_s : Nat
  ctime_n : Nat
  mtime_s : Nat
  mtime_n : Nat
  dev : Nat
  ino : Nat
  mode : Nat
  uid : Nat
  gid : Nat
  size : Nat
  sha1 : Bytes
  flags : Nat
  path : Bytes
deriving DecidableEq, Repr

/-- Byte literal: DIRC, the index signature. -/
def dircSig : Bytes := [68, 73, 82, 67]

/-- The 20s struct field: truncate to 20 bytes, pad with NULs. -/
def fixed20 (b : Bytes) : Bytes := b.take 20 ++ List.replicate (20 - b.length) 0

/-- struct.pack of the fixed 62-byte entry head, format !LLLLLLLLLL20sH. -/
def entryHead (e : IndexEntry) : Bytes :=
  u32 e.ctime_s ++ u32 e.ctime_n ++ u32 e.mtime_s ++ u32 e.mtime_n ++
    u32 e.dev ++ u32 e.ino ++ u32 e.mode ++ u32 e.uid ++ u32 e.gid ++
    u32 e.size ++ fixed20 e.sha1 ++ u16 e.flags

/-- Total packed length of an entry with the given path length: padded with
NULs to a multiple of 8, always strictly beyond the path. -/
def entryLen (plen : Nat) : Nat := (62 + plen + 8) / 8 * 8

/-- One packed index entry: the 62-byte head, the path bytes, NUL padding. -/
def entryBytes (e : IndexEntry) : Bytes :=
  entryHead e ++ e.path ++
    List.replicate (entryLen e.path.length - 62 - e.path.length) 0

/-- The bytes write_index produces: DIRC header with version 2 and the entry
count, the packed entries, and the SHA-1 of everything before it. -/
def write_index_data (entries : List IndexEntry) : Bytes :=
  let all := dircSig ++ u32 2 ++ u32 entries.length ++
    (entries.map entryBytes).flatten
  all ++ sha1 all

/-- The range check struct.pack performs on the ten !L fields and the !H
field of one entry. -/
def entryPackOk (e : IndexEntry) : Bool :=
  e.ctime_s < 2 ^ 32 && e.ctime_n < 2 ^ 32 && e.mtime_s < 2 ^ 32 &&
    e.mtime_n < 2 ^ 32 && e.dev < 2 ^ 32 && e.ino < 2 ^ 32 &&
    e.mode < 2 ^ 32 && e.uid < 2 ^ 32 && e.gid < 2 ^ 32 &&
    e.size < 2 ^ 32 && e.flags < 2 ^ 16

/-- write_index: packs the entries and writes the file wholesale.  struct.pack
raises when a numeric field does not fit its fixed-width format; that is the
only failure mode. -/
def write_index (entries : List IndexEntry) : Except GitError Bytes :=
  if entries.all entryPackOk && entries.length < 2 ^ 32 then
    .ok (write_index_data entries)
  else .error .packRange

/-- struct.unpack of the 62-byte entry head, format !LLLLLLLLLL20sH, by
successive slicing. -/
def parse_fields (l : Bytes) (path : Bytes) : IndexEntry :=
  let l1 := l.drop 4
  let l2 := l1.drop 4
  let l3 := l2.drop 4
  let l4 := l3.drop 4
  let l5 := l4.drop 4
  let l6 := l5.drop 4
  let l7 := l6.drop 4
  let l8 := l7.drop 4
  let l9 := l8.drop 4
  let l10 := l9.drop 4
  ⟨u32dec (l.take 4), u32dec (l1.take 4), u32dec (l2.take 4),
    u32dec (l3.take 4), u32dec (l4.take 4), u32dec (l5.take 4),
    u32dec (l6.take 4), u32dec (l7.take 4), u32dec (l8.take 4),
    u32dec (l9.take 4), l10.take 20, u16dec ((l10.drop 20).take 2), path⟩

/-- The entry-parsing loop of read_index over the remaining entry data: while
more than 62 bytes remain, unpack a head, scan to the next NUL for the path,
and advance by the padded entry length.  The fuel argument only drives
termination; read_index supplies one more than the buffer length, which the
loop can never exhaust since every iteration consumes at least 64 bytes. -/
def parse_entries : Nat → Bytes → List IndexEntry →
    Except GitError (List IndexEntry)
  | 0, _, _ => .error .structErr
  | f + 1, rem, acc =>
    if 62 < rem.length then
      match findNul (rem.drop 62) with
      | none => .error .valueErr
      | some j =>
        parse_entries f (rem.drop (entryLen j))
          (parse_fields (rem.take 62) ((rem.drop 62).take j) :: acc)
    else .ok acc.reverse

/-- read_index on the bytes of an existing index file: check the trailing
checksum, then the signature and version from the 12-byte header, parse the
entries, and check the entry count.  The missing-file case (which returns an
empty list) is modelled separately by read_index_file. -/
def read_index (data : Bytes) : Except GitError (List IndexEntry) :=
  if sha1 (data.take (data.length - 20)) ≠ data.drop (data.length - 20) then
    .error .badChecksum
  else if data.length < 12 then .error .structErr
  else if data.take 4 ≠ dircSig then .error .badSignature
  else if u32dec ((data.drop 4).take 4) ≠ 2 then .error .badVersion
  else
    let entryData := (data.drop 12).take (data.length - 32)
    match parse_entries (entryData.length + 1) entryData [] with
    | .ok entries =>
      if entries.length = u32dec ((data.drop 8).take 4) then .ok entries
      else .error .badEntryCount
    | .error e => .error e

/-! ### Tree codec -/

/-- A tree entry on the serialisation side: mode, path bytes, and the 20 raw
digest bytes, as drawn from an index entry by write_tree. -/
structure TreeIn where
  mode : Nat
  path : Bytes
  sha1 : Bytes
deriving DecidableEq, Repr

/-- A tree entry as returned by read_tree: mode, path, and the digest as a
hex string. -/
structure TreeOut where
  mode : Nat
  path : Bytes
  sha1hex : Bytes
deriving DecidableEq, Repr

/-- Serialisation of one tree entry, as in write_tree: the octal mode, one
space, the path, one NUL byte, the 20 raw digest bytes. -/
def treeRecBytes (t : TreeIn) : Bytes :=
  octBytes t.mode ++ [32] ++ t.path ++ [0] ++ t.sha1

/-- The tree payload write_tree hashes: the concatenated entry records, with
no outer length prefix. -/
def write_tree_payload (T : List TreeIn) : Bytes := (T.map treeRecBytes).flatten

/-- The decoding read_tree performs on one well-formed record. -/
def treeDec (t : TreeIn) : TreeOut := ⟨t.mode, t.path, hexBytes t.sha1⟩

/-- The scanning loop of read_tree: find the next NUL, split the header into
mode and path (exactly two tokens, else ValueError), parse the octal mode,
slice 20 digest bytes, and continue past them.  The first argument is the
loop counter of the Python source: read_tree runs it from 1000, and when it
reaches zero the accumulated entries are returned with no error. -/
def read_tree_go : Nat → Bytes → List TreeOut → Except GitError (List TreeOut)
  | 0, _, acc => .ok acc.reverse
  | f + 1, rest, acc =>
    match findNul rest with
    | none => .ok acc.reverse
    | some j =>
      match splitWs (rest.take j) with
      | [ms, p] =>
        match parseOct ms with
        | some mode =>
          read_tree_go f (rest.drop (j + 21))
            (⟨mode, p, hexBytes ((rest.drop (j + 1)).take 20)⟩ :: acc)
        | none => .error .valueErr
      | _ => .error .valueErr

/-- read_tree on a payload. -/
def read_tree (data : Bytes) : Except GitError (List TreeOut) :=
  read_tree_go 1000 data []

/-! ### Repository state, status, diff, add, commit -/

/-- The working directory: an association list from path to file content, as
gathered by the os.walk of get_status.  Paths are unique (a file system has
one file per path). -/
abbrev WorkDir := List (Bytes × Bytes)

/-- read_file on a working-directory path. -/
def wdLookup (wd : WorkDir) (p : Bytes) : Option Bytes :=
  (wd.find? (fun q => q.1 == p)).map (·.2)

/-- Lookup in the entries-by-path dictionary.  Python keeps the last entry
for a duplicated path; the model takes the first, and the two agree on the
duplicate-free indexes all theorems below quantify over. -/
def idxLookup (idx : List IndexEntry) (p : Bytes) : Option IndexEntry :=
  idx.find? (fun e => e.path == p)

/-- Python sorted() on a collection of byte strings. -/
def sortB (l : List Bytes) : List Bytes := List.insertionSort bytesLeP l

/-- The changed-path comprehension of get_status, threading the object store
through each hash_object call (each call is made with write disabled). -/
def status_changed (wd : WorkDir) (idx : List IndexEntry) :
    List Bytes → Store → List Bytes × Store
  | [], s => ([], s)
  | p :: ps, s =>
    let r1 := hash_object ((wdLookup wd p).getD []) blobKind false s
    let r2 := status_changed wd idx ps r1.2
    match idxLookup idx p with
    | some e => if r1.1 ≠ hexBytes e.sha1 then (p :: r2.1, r2.2) else r2
    | none => r2

/-- get_status after the index has been read: classify paths into changed,
new and deleted, and sort each class. -/
def get_status_entries (wd : WorkDir) (idx : List IndexEntry) (s : Store) :
    (List Bytes × List Bytes × List Bytes) × Store :=
  let paths := wd.map (·.1)
  let epaths := idx.map (·.path)
  let cs := status_changed wd idx (paths.filter epaths.contains) s
  ((sortB cs.1, sortB (paths.filter (fun p => !epaths.contains p)),
    sortB (epaths.filter (fun p => !paths.contains p))), cs.2)

/-- Full repository state: the object store, the index file contents when the
file exists, and the branch ref file contents when it exists. -/
structure RepoState where
  store : Store
  indexFile : Option Bytes
  ref : Option Bytes
deriving DecidableEq, Repr

/-- read_index including its missing-file case: no index file is the fresh
state and yields an empty entry list. -/
def read_index_file : Option Bytes → Except GitError (List IndexEntry)
  | none => .ok []
  | some d => read_index d

/-- get_status: read the index, classify against the working directory. -/
def get_status (wd : WorkDir) (st : RepoState) :
    Except GitError ((List Bytes × List Bytes × List Bytes) × RepoState) :=
  match read_index_file st.indexFile with
  | .error e => .error e
  | .ok idx =>
    let r := get_status_entries wd idx st.store
    .ok (r.1, { st with store := r.2 })

/-- The per-path body of diff: fetch the recorded blob from the object store,
check its kind, and pair the stored content with the live content.  The line
splitting and difflib.unified_diff post-processing are pure functions of the
returned triples and touch no repository state. -/
def diff_loop (wd : WorkDir) (idx : List IndexEntry) :
    List Bytes → Store → Except GitError (List (Bytes × Bytes × Bytes) × Store)
  | [], s => .ok ([], s)
  | p :: ps, s =>
    match read_object (hexBytes (((idxLookup idx p).map (·.sha1)).getD [])) s with
    | .error e => .error e
    | .ok td =>
      if td.1 = blobKind then
        match diff_loop wd idx ps s with
        | .error e => .error e
        | .ok r => .ok ((p, td.2, (wdLookup wd p).getD []) :: r.1, r.2)
      else .error .assertFail

/-- diff: compute the changed paths via get_status, re-read the index, and
collect for every changed path the stored and the live content. -/
def diff (wd : WorkDir) (st : RepoState) :
    Except GitError (List (Bytes × Bytes × Bytes) × RepoState) :=
  match get_status wd st with
  | .error e => .error e
  | .ok r1 =>
    match read_index_file r1.2.indexFile with
    | .error e => .error e
    | .ok idx =>
      match diff_loop wd idx r1.1.1 r1.2.store with
      | .error e => .error e
      | .ok r2 => .ok (r2.1, { r1.2 with store := r2.2 })

/-- The stat metadata captured by add for one path. -/
structure StatData where
  ctime : Nat
  mtime : Nat
  dev : Nat
  ino : Nat
  mode : Nat
  uid : Nat
  gid : Nat
  size : Nat
deriving DecidableEq, Repr

/-- Path normalisation in add: backslashes become slashes. -/
def normPath (p : Bytes) : Bytes := p.map (fun b => if b = 92 then 47 else b)

/-- The entry add builds for one path: stat fields, the raw digest decoded
from the hex digest, the path byte length as flags, and the path. -/
def mkEntry (p dhex : Bytes) (sd : StatData) : IndexEntry :=
  ⟨sd.ctime, 0, sd.mtime, 0, sd.dev, sd.ino, sd.mode, sd.uid, sd.gid, sd.size,
    unhexBytes dhex, p.length, p⟩

/-- The per-path loop of add: read the file (FileNotFoundError when absent),
store it as a blob, check the path length fits 12 bits, and build the entry.
The stat metadata is supplied by the statOf parameter. -/
def add_loop (wd : WorkDir) (statOf : Bytes → StatData) :
    List Bytes → Store → Except GitError (List IndexEntry × Store)
  | [], s => .ok ([], s)
  | p :: ps, s =>
    match wdLookup wd p with
    | none => .error .fsNotFound
    | some content =>
      let r1 := hash_object content blobKind true s
      if p.length < 2 ^ 12 then
        match add_loop wd statOf ps r1.2 with
        | .error e => .error e
        | .ok r2 => .ok (mkEntry p r1.1 (statOf p) :: r2.1, r2.2)
      else .error .pathTooLong

/-- The ordering add sorts index entries by: their paths. -/
def entryLe (e1 e2 : IndexEntry) : Prop := bytesLeP e1.path e2.path

instance : DecidableRel entryLe := fun a b =>
  decidable_of_iff (bytesLe a.path b.path = true) Iff.rfl

/-- add: normalise the paths, drop existing entries for them, build one new
entry per path, sort everything by path, and write the index file. -/
def add (wd : WorkDir) (statOf : Bytes → StatData) (paths : List Bytes)
    (idx : List IndexEntry) (s : Store) :
    Except GitError (List IndexEntry × Bytes × Store) :=
  let npaths := paths.map normPath
  match add_loop wd statOf npaths s with
  | .error e => .error e
  | .ok r =>
    let sortedE := List.insertionSort entryLe
      (idx.filter (fun e => !npaths.contains e.path) ++ r.1)
    match write_index sortedE with
    | .error e => .error e
    | .ok fileData => .ok (sortedE, fileData, r.2)

/-- write_tree: read the index, reject any path containing a slash, serialise
the (mode, path, digest) triples in index order, and store the payload as a
tree object. -/
def write_tree (st : RepoState) : Except GitError (Bytes × RepoState) :=
  match read_index_file st.indexFile with
  | .error e => .error e
  | .ok idx =>
    if idx.all (fun e => !e.path.contains 47) then
      let r := hash_object
        (write_tree_payload (idx.map (fun e => ⟨e.mode, e.path, e.sha1⟩)))
        treeKind true st.store
      .ok (r.1, { st with store := r.2 })
    else .error .nestedTree

/-- get_local_master_hash: the stripped contents of the ref file, or None
when the file does not exist. -/
def get_local_master_hash (st : RepoState) : Option Bytes :=
  st.ref.map stripBytes

/-- Byte literal: the default author string, MorbidArk with mail address. -/
def defaultAuthor : Bytes :=
  [77, 111, 114, 98, 105, 100, 65, 114, 107, 32, 60, 49, 52, 56, 50, 53, 48,
   54, 56, 52, 49, 64, 113, 113, 46, 99, 111, 109, 62]

/-- Python format {:02}: pad a number to at least two decimal digits. -/
def twoPad (n : Nat) : Bytes := if n < 10 then 48 :: decBytes n else decBytes n

/-- The author timestamp: epoch seconds, a space, a sign (minus also for a
zero offset), and the offset as hours and minutes, each two digits. -/
def authorTime (ts : Nat) (off : Int) : Bytes :=
  decBytes ts ++ [32] ++ [if 0 < off then 43 else 45] ++
    twoPad (off.natAbs / 3600) ++ twoPad (off.natAbs / 60 % 60)

/-- The caller-supplied inputs of one commit invocation: the message, the
optional author, and the local time data the source draws from the clock. -/
structure CommitArgs where
  message : Bytes
  author : Option Bytes
  timestamp : Nat
  utcOffset : Int

/-- Byte literal: author followed by a space. -/
def authorLit : Bytes := [97, 117, 116, 104, 111, 114, 32]

/-- Byte literal: committer followed by a space. -/
def committerLit : Bytes := [99, 111, 109, 109, 105, 116, 116, 101, 114, 32]

/-- Byte literal: parent followed by a space. -/
def parentLit : Bytes := [112, 97, 114, 101, 110, 116, 32]

/-- The author field of a commit: the author string, a space, the time. -/
def authorField (a : CommitArgs) : Bytes :=
  a.author.getD defaultAuthor ++ [32] ++ authorTime a.timestamp a.utcOffset

/-- The line list a commit serialises: the tree line (the source concatenates
the word tree and the digest with no space), the parent line when the parent
digest is present and non-empty (Python truthiness), the author and committer
lines, a blank line, the message, a blank line. -/
def commit_lines (tree : Bytes) (parent : Option Bytes) (a : CommitArgs) :
    List Bytes :=
  [treeKind ++ tree] ++
    (match parent with
     | some p => if p = [] then [] else [parentLit ++ p]
     | none => []) ++
    [authorLit ++ authorField a, committerLit ++ authorField a, [],
     a.message, []]

/-- commit: write the tree, read the branch head as parent, serialise the
commit record joined by newlines, store it as a commit object, and overwrite
the ref file with the digest followed by a newline. -/
def commit (a : CommitArgs) (st : RepoState) :
    Except GitError (Bytes × RepoState) :=
  match write_tree st with
  | .error e => .error e
  | .ok ts =>
    let data := List.intercalate [10]
      (commit_lines ts.1 (get_local_master_hash ts.2) a)
    let r := hash_object data commitKind true ts.2.store
    .ok (r.1, { ts.2 with store := r.2, ref := some (r.1 ++ [10]) })

/-- The repository state after an operation on the Except monad: the state the
operation returned on success, the unchanged input state when it raised. -/
def statePost {α : Type} (r : Except GitError (α × RepoState))
    (st : RepoState) : RepoState :=
  match r with
  | .ok p => p.2
  | .error _ => st

deriving instance DecidableEq for Except

/-! ### Concrete repository data used by the witnesses and counterexamples -/

/-- A one-entry index: path a, a 20-byte digest, small stat numbers. -/
def wE : List IndexEntry :=
  [⟨1, 2, 3, 4, 5, 6, 33188, 7, 8, 9, List.replicate 20 171, 1, [97]⟩]

/-- The index file bytes written for wE. -/
def wData : Bytes := (write_index wE).toOption.getD []

/-- A tree entry whose path is a single letter. -/
def tGood : TreeIn := ⟨33188, [97], List.replicate 20 0⟩

/-- A tree entry whose path contains a space. -/
def tBad : TreeIn := ⟨33188, [97, 32, 98], List.replicate 20 1⟩

/-- The record replicated beyond the scan cap of read_tree. -/
def capRec : TreeIn := ⟨0, [97], List.replicate 20 97⟩

/-- A two-file working directory: path a holds one byte, path b another. -/
def wdDemo : WorkDir := [([97], [104]), ([98], [105])]

/-- An index tracking path a with the digest of its current content and
path c with an unrelated digest (c is absent from the working directory). -/
def idxDemo : List IndexEntry :=
  [⟨1, 2, 3, 4, 5, 6, 33188, 7, 8, 9, sha1 (fullData blobKind [104]), 1, [97]⟩,
   ⟨1, 2, 3, 4, 5, 6, 33188, 7, 8, 9, List.replicate 20 0, 1, [99]⟩]

/-- Stat metadata that is all zeros, for the add demonstrations. -/
def statZero : Bytes → StatData := fun _ => ⟨0, 0, 0, 0, 0, 0, 0, 0⟩

/-- A working directory holding the single path b with empty content. -/
def addWd : WorkDir := [([98], [])]

/-- A sorted, duplicate-free starting index whose single entry carries a
4096-byte path (write_index accepts such an entry; only add checks path
length, and only for the paths it is given). -/
def addIdxLong : List IndexEntry :=
  [⟨1, 2, 3, 4, 5, 6, 33188, 7, 8, 9, List.replicate 20 171, 4096,
    List.replicate 4096 97⟩]

/-- The result of adding path b once to the one-entry index wE. -/
def addRes : List IndexEntry × Bytes × Store :=
  (add addWd statZero [[98]] wE []).toOption.getD ([], [], [])

/-- A fresh repository: empty store, no index file, no ref file. -/
def repoDemo : RepoState := ⟨[], none, none⟩

/-- Commit inputs for the demonstrations: message m, author a, epoch zero,
zero UTC offset. -/
def argsDemo : CommitArgs := ⟨[109], some [97], 0, 0⟩

/-- The first demonstration commit on the fresh repository. -/
def commitRes1 : Bytes × RepoState :=
  (commit argsDemo repoDemo).toOption.getD ([], repoDemo)

/-- The second demonstration commit, on the state the first one left. -/
def commitRes2 : Bytes × RepoState :=
  (commit argsDemo commitRes1.2).toOption.getD ([], repoDemo)

/-- Store well-formedness: every stored file is the framed image of one of
the three object kinds, exactly as hash_object writes it.  Every store
reachable through the program's operations satisfies this. -/
def StoreWF (st : Store) : Prop :=
  ∀ o ∈ st, ∃ k payload, (k = blobKind ∨ k = treeKind ∨ k = commitKind) ∧
    o.2 = fullData k payload

/-! ## Order lemmas for the path comparison -/

theorem bytesLe_total : ∀ a b : Bytes, bytesLe a b = true ∨ bytesLe b a = true := by
  intro a
  induction a with
  | nil => intro b; left; rfl
  | cons x xs ih =>
    intro b
    cases b with
    | nil => right; rfl
    | cons y ys =>
      rcases Nat.lt_trichotomy x y with h | h | h
      · left; simp [bytesLe, h]
      · subst h
        rcases ih ys with h2 | h2
        · left; simp [bytesLe, h2]
        · right; simp [bytesLe, h2]
      · right; simp [bytesLe, h]

theorem bytesLe_trans :
    ∀ a b c : Bytes, bytesLe a b = true → bytesLe b c = true →
      bytesLe a c = true := by
  intro a
  induction a with
  | nil => intro b c _ _; rfl
  | cons x xs ih =>
    intro b c hab hbc
    cases b with
    | nil => simp [bytesLe] at hab
    | cons y ys =>
      cases c with
      | nil => simp [bytesLe] at hbc
      | cons z zs =>
        simp only [bytesLe, Bool.or_eq_true, Bool.and_eq_true,
          decide_eq_true_eq, beq_iff_eq] at hab hbc ⊢
        rcases hab with h1 | ⟨rfl, h1⟩
        · rcases hbc with h2 | ⟨rfl, h2⟩
          · left; omega
          · left; exact h1
        · rcases hbc with h2 | ⟨rfl, h2⟩
          · left; exact h2
          · right; exact ⟨rfl, ih ys zs h1 h2⟩

instance : IsTotal Bytes bytesLeP := ⟨bytesLe_total⟩

instance : IsTrans Bytes bytesLeP := ⟨bytesLe_trans⟩

instance : IsTotal IndexEntry entryLe := ⟨fun a b => bytesLe_total a.path b.path⟩

instance : IsTrans IndexEntry entryLe :=
  ⟨fun a b c => bytesLe_trans a.path b.path c.path⟩

/-! ## Lemmas about digits, fixed-width integers and hex -/

theorem digAux_append (b : Nat) (hb : 2 ≤ b) :
    ∀ n f acc, n < f → digAux b f n acc = digAux b f n [] ++ acc := by
  intro n
  induction n using Nat.strong_induction_on with
  | _ n ih =>
    intro f acc hf
    cases f with
    | zero => omega
    | succ g =>
      by_cases hn : n < b
      · simp [digAux, hn]
      · have hdiv : n / b < n := Nat.div_lt_self (by omega) (by omega)
        have hg : n / b < g := by omega
        simp only [digAux, if_neg hn]
        rw [ih (n / b) hdiv g (n % b :: acc) hg, ih (n / b) hdiv g [n % b] hg]
        simp

theorem digVal_digAux (b : Nat) (hb : 2 ≤ b) :
    ∀ n f, n < f → digVal b (digAux b f n []) = n := by
  intro n
  induction n using Nat.strong_induction_on with
  | _ n ih =>
    intro f hf
    cases f with
    | zero => omega
    | succ g =>
      by_cases hn : n < b
      · simp [digAux, hn, digVal]
      · have hdiv : n / b < n := Nat.div_lt_self (by omega) (by omega)
        have hg : n / b < g := by omega
        simp only [digAux, if_neg hn]
        rw [digAux_append b hb (n / b) g [n % b] hg]
        unfold digVal
        rw [List.foldl_append]
        have hv := ih (n / b) hdiv g hg
        unfold digVal at hv
        rw [hv]
        simp only [List.foldl_cons, List.foldl_nil]
        exact Nat.div_add_mod' n b

theorem mem_digAux (b : Nat) (hb : 0 < b) :
    ∀ f n acc d, d ∈ digAux b f n acc → d < b ∨ d ∈ acc := by
  intro f
  induction f with
  | zero => intro n acc d hd; right; exact hd
  | succ g ih =>
    intro n acc d hd
    by_cases hn : n < b
    · simp only [digAux, if_pos hn, List.mem_cons] at hd
      rcases hd with rfl | hd
      · left; exact hn
      · right; exact hd
    · simp only [digAux, if_neg hn] at hd
      rcases ih (n / b) (n % b :: acc) d hd with h | h
      · left; exact h
      · rcases List.mem_cons.mp h with rfl | h
        · left; exact Nat.mod_lt _ hb
        · right; exact h

theorem digAux_ne_nil (b : Nat) :
    ∀ f n acc, 0 < f ∨ acc ≠ [] → digAux b f n acc ≠ [] := by
  intro f
  induction f with
  | zero =>
    intro n acc h
    rcases h with h | h
    · omega
    · exact h
  | succ g ih =>
    intro n acc h
    by_cases hn : n < b
    · simp [digAux, hn]
    · simp only [digAux, if_neg hn]
      exact ih _ _ (Or.inr (by simp))

theorem octBytes_ne_nil (n : Nat) : octBytes n ≠ [] := by
  unfold octBytes
  intro h
  exact digAux_ne_nil 8 (n + 1) n [] (Or.inl (by omega)) (List.map_eq_nil_iff.mp h)

theorem decBytes_ne_nil (n : Nat) : decBytes n ≠ [] := by
  unfold decBytes
  intro h
  exact digAux_ne_nil 10 (n + 1) n [] (Or.inl (by omega)) (List.map_eq_nil_iff.mp h)

theorem mem_octBytes (n d : Nat) (hd : d ∈ octBytes n) : 48 ≤ d ∧ d ≤ 55 := by
  unfold octBytes at hd
  obtain ⟨x, hx, rfl⟩ := List.mem_map.mp hd
  rcases mem_digAux 8 (by omega) (n + 1) n [] x hx with h | h
  · omega
  · simp at h

theorem mem_decBytes (n d : Nat) (hd : d ∈ decBytes n) : 48 ≤ d ∧ d ≤ 57 := by
  unfold decBytes at hd
  obtain ⟨x, hx, rfl⟩ := List.mem_map.mp hd
  rcases mem_digAux 10 (by omega) (n + 1) n [] x hx with h | h
  · omega
  · simp at h

theorem map_sub_add_48 (l : List Nat) :
    (l.map (· + 48)).map (· - 48) = l := by
  rw [List.map_map]
  have : ∀ x ∈ l, ((· - 48) ∘ (· + 48)) x = id x := by
    intro x _; simp
  rw [List.map_congr_left this, List.map_id]

theorem parseOct_octBytes (n : Nat) : parseOct (octBytes n) = some n := by
  unfold parseOct
  rw [if_pos]
  · rw [octBytes, map_sub_add_48,
      digVal_digAux 8 (by omega) n (n + 1) (Nat.lt_succ_self n)]
  · refine ⟨octBytes_ne_nil n, ?_⟩
    rw [List.all_eq_true]
    intro d hd
    have := mem_octBytes n d hd
    simp only [decide_eq_true_eq]
    omega

theorem parseDec_decBytes (n : Nat) : parseDec (decBytes n) = some n := by
  unfold parseDec
  rw [if_pos]
  · rw [decBytes, map_sub_add_48,
      digVal_digAux 10 (by omega) n (n + 1) (Nat.lt_succ_self n)]
  · refine ⟨decBytes_ne_nil n, ?_⟩
    rw [List.all_eq_true]
    intro d hd
    have := mem_decBytes n d hd
    simp only [decide_eq_true_eq]
    omega

theorem u32dec_u32 (n : Nat) (h : n < 2 ^ 32) : u32dec (u32 n) = n := by
  show ((n / 2 ^ 24 % 256 * 256 + n / 2 ^ 16 % 256) * 256 + n / 2 ^ 8 % 256) *
      256 + n % 256 = n
  have h24 : (2 : Nat) ^ 24 = 16777216 := by norm_num
  have h16 : (2 : Nat) ^ 16 = 65536 := by norm_num
  have h8 : (2 : Nat) ^ 8 = 256 := by norm_num
  have h32 : (2 : Nat) ^ 32 = 4294967296 := by norm_num
  rw [h24, h16, h8] at *
  omega

theorem u16dec_u16 (n : Nat) (h : n < 2 ^ 16) : u16dec (u16 n) = n := by
  show n / 256 % 256 * 256 + n % 256 = n
  have h16 : (2 : Nat) ^ 16 = 65536 := by norm_num
  rw [h16] at h
  omega

/-! ## Lemmas about whitespace splitting and stripping -/

theorem isWs_32 : isWs 32 = true := rfl

theorem isWs_10 : isWs 10 = true := rfl

theorem splitWsAux_run (a : Bytes) (ha : ∀ b ∈ a, isWs b = false) :
    ∀ r tok, splitWsAux (a ++ r) tok = splitWsAux r (a.reverse ++ tok) := by
  induction a with
  | nil => intro r tok; simp
  | cons x xs ih =>
    intro r tok
    rw [List.cons_append]
    simp only [splitWsAux, ha x (by simp), Bool.false_eq_true, if_false]
    rw [ih (fun b hb => ha b (by simp [hb])) r (x :: tok)]
    simp

theorem splitWsAux_end (a : Bytes) (ha : ∀ b ∈ a, isWs b = false)
    (hne : a ≠ []) : splitWsAux a [] = [a] := by
  conv_lhs => rw [← List.append_nil a]
  rw [splitWsAux_run a ha [] []]
  simp only [splitWsAux, List.append_nil]
  rw [if_neg (by simp [hne])]
  simp

theorem splitWs_two (a b : Bytes) (hane : a ≠ []) (hbne : b ≠ [])
    (ha : ∀ c ∈ a, isWs c = false) (hb : ∀ c ∈ b, isWs c = false) :
    splitWs (a ++ 32 :: b) = [a, b] := by
  unfold splitWs
  rw [show a ++ 32 :: b = a ++ (32 :: b) from rfl,
    splitWsAux_run a ha (32 :: b) []]
  simp only [splitWsAux, isWs_32, if_true, List.append_nil]
  rw [if_neg (by simp [hane])]
  rw [splitWsAux_end b hb hbne]
  simp

theorem dropWhile_isWs_eq_self (l : Bytes) (h : ∀ b ∈ l, isWs b = false) :
    l.dropWhile isWs = l := by
  cases l with
  | nil => rfl
  | cons x xs =>
    rw [List.dropWhile_cons, h x (by simp)]
    simp

theorem stripBytes_append_newline (x : Bytes) (hne : x ≠ [])
    (h : ∀ b ∈ x, isWs b = false) : stripBytes (x ++ [10]) = x := by
  obtain ⟨c, t, rfl⟩ := List.exists_cons_of_ne_nil hne
  unfold stripBytes
  have h1 : ((c :: t) ++ [10]).dropWhile isWs = c :: (t ++ [10]) := by
    rw [List.cons_append, List.dropWhile_cons, h c (by simp)]
    simp
  rw [h1]
  have h2 : (c :: (t ++ [10])).reverse = 10 :: (t.reverse ++ [c]) := by simp
  rw [h2, List.dropWhile_cons, isWs_10]
  simp only [if_true]
  rw [dropWhile_isWs_eq_self (t.reverse ++ [c])]
  · simp
  · intro b hb
    apply h
    rcases List.mem_append.mp hb with hb | hb
    · simp [List.mem_reverse.mp hb]
    · simp at hb
      simp [hb]

/-! ## Lemmas about NUL scanning and hex strings -/

theorem findNul_append (h : Bytes) (r : Bytes) (hh : ∀ b ∈ h, b ≠ 0) :
    findNul (h ++ 0 :: r) = some h.length := by
  induction h with
  | nil => rfl
  | cons x xs ih =>
    have hx : x ≠ 0 := hh x (by simp)
    rw [List.cons_append]
    cases x with
    | zero => exact absurd rfl hx
    | succ n =>
      simp only [findNul, ih (fun b hb => hh b (by simp [hb])), Option.map_some']
      simp

theorem hexDigit_ge (d : Nat) : 48 ≤ hexDigit d := by
  unfold hexDigit; split <;> omega

theorem mem_hexBytes_ge (l : Bytes) (c : Nat) (hc : c ∈ hexBytes l) :
    48 ≤ c := by
  unfold hexBytes at hc
  rw [List.mem_flatten] at hc
  obtain ⟨m, hm, hcm⟩ := hc
  obtain ⟨b, _, rfl⟩ := List.mem_map.mp hm
  rcases List.mem_cons.mp hcm with rfl | hcm
  · exact hexDigit_ge _
  · rcases List.mem_cons.mp hcm with rfl | hcm
    · exact hexDigit_ge _
    · simp at hcm

theorem mem_hexBytes_not_ws (l : Bytes) (c : Nat) (hc : c ∈ hexBytes l) :
    isWs c = false := by
  have := mem_hexBytes_ge l c hc
  simp only [isWs, Bool.or_eq_false_iff, beq_eq_false_iff_ne]
  omega

theorem hexBytes_ne_nil (l : Bytes) (h : l ≠ []) : hexBytes l ≠ [] := by
  obtain ⟨c, t, rfl⟩ := List.exists_cons_of_ne_nil h
  simp [hexBytes]

/-! ## Shape lemmas for SHA-1 and hash_object -/

theorem sha1_length (m : Bytes) : (sha1 m).length = 20 := by
  simp [sha1, wordBytes]

theorem sha1_ne_nil (m : Bytes) : sha1 m ≠ [] := by
  intro h
  have := sha1_length m
  rw [h] at this
  simp at this

theorem sha1Hex_ne_nil (m : Bytes) : sha1Hex m ≠ [] :=
  hexBytes_ne_nil _ (sha1_ne_nil m)

theorem hash_object_fst (data kind : Bytes) (w : Bool) (st : Store) :
    (hash_object data kind w st).1 = sha1Hex (fullData kind data) := by
  unfold hash_object
  dsimp only
  split <;> rfl

theorem hash_object_false (data kind : Bytes) (st : Store) :
    hash_object data kind false st = (sha1Hex (fullData kind data), st) := by
  unfold hash_object
  dsimp only
  simp

/-! ## Claim C6: idempotent hashing -/

theorem storeHas_iff (st : Store) (d : Bytes) :
    storeHas st d = true ↔ ∃ o ∈ st, o.1 = d := by
  unfold storeHas
  rw [List.any_eq_true]
  constructor
  · rintro ⟨o, ho, h⟩
    exact ⟨o, ho, by simpa using h⟩
  · rintro ⟨o, ho, h⟩
    exact ⟨o, ho, by simpa using h⟩

theorem filter_key_nil (st : Store) (d : Bytes) (h : storeHas st d = false) :
    st.filter (fun o => o.1 == d) = [] := by
  rw [List.filter_eq_nil_iff]
  intro o ho hq
  have : storeHas st d = true := (storeHas_iff st d).mpr ⟨o, ho, by simpa using hq⟩
  rw [h] at this
  exact Bool.false_ne_true this

theorem filter_key_one (st : Store) (d : Bytes)
    (hnd : (st.map Prod.fst).Nodup) (h : storeHas st d = true) :
    (st.filter (fun o => o.1 == d)).length = 1 := by
  induction st with
  | nil => simp [storeHas] at h
  | cons o t ih =>
    rw [List.map_cons, List.nodup_cons] at hnd
    by_cases ho : o.1 = d
    · rw [List.filter_cons_of_pos (by simpa using ho)]
      have ht : storeHas t d = false := by
        rw [Bool.eq_false_iff]
        intro hh
        obtain ⟨q, hq, hqd⟩ := (storeHas_iff t d).mp hh
        exact hnd.1 (ho ▸ hqd ▸ List.mem_map.mpr ⟨q, hq, rfl⟩)
      rw [filter_key_nil t d ht]
      simp
    · rw [List.filter_cons_of_neg (by simpa using ho)]
      apply ih hnd.2
      obtain ⟨q, hq, hqd⟩ := (storeHas_iff (o :: t) d).mp h
      rcases List.mem_cons.mp hq with rfl | hq
      · exact absurd hqd ho
      · exact (storeHas_iff t d).mpr ⟨q, hq, hqd⟩

/-- Claim C6: calling hash_object with persistence twice returns the same
digest both times, the second call leaves the store exactly as the first call
left it (no rewrite of the existing object file), and after the first call
the object directory holds exactly one file for that digest. -/
theorem hash_object_idempotent (data kind : Bytes) (st : Store)
    (hnd : (st.map Prod.fst).Nodup) :
    (hash_object data kind true ((hash_object data kind true st).2)).1 =
        (hash_object data kind true st).1 ∧
    (hash_object data kind true ((hash_object data kind true st).2)).2 =
        (hash_object data kind true st).2 ∧
    (((hash_object data kind true st).2).filter
        (fun o => o.1 == (hash_object data kind true st).1)).length = 1 := by
  have hfst := hash_object_fst data kind true st
  by_cases h : storeHas st (sha1Hex (fullData kind data)) = true
  · have h1 : hash_object data kind true st = (sha1Hex (fullData kind data), st) := by
      unfold hash_object
      dsimp only
      rw [h]
      simp
    rw [h1]
    refine ⟨by rw [h1], by rw [h1], ?_⟩
    exact filter_key_one st _ hnd h
  · have hf : storeHas st (sha1Hex (fullData kind data)) = false := by
      simpa using h
    have h1 : hash_object data kind true st =
        (sha1Hex (fullData kind data),
          st ++ [(sha1Hex (fullData kind data), fullData kind data)]) := by
      unfold hash_object
      dsimp only
      rw [hf]
      simp
    have h2 : storeHas
        (st ++ [(sha1Hex (fullData kind data), fullData kind data)])
        (sha1Hex (fullData kind data)) = true := by
      unfold storeHas
      rw [List.any_append]
      simp
    have h3 : hash_object data kind true
        (st ++ [(sha1Hex (fullData kind data), fullData kind data)]) =
        (sha1Hex (fullData kind data),
          st ++ [(sha1Hex (fullData kind data), fullData kind data)]) := by
      unfold hash_object
      dsimp only
      rw [h2]
      simp
    rw [h1, h3]
    refine ⟨rfl, rfl, ?_⟩
    rw [List.filter_append, filter_key_nil st _ hf]
    simp

/-- Witness for C6 at the empty payload, blob kind and empty store. -/
theorem hash_object_idempotent_witness :
    (hash_object [] blobKind true ((hash_object [] blobKind true []).2)).1 =
        (hash_object [] blobKind true []).1 ∧
    (hash_object [] blobKind true ((hash_object [] blobKind true []).2)).2 =
        (hash_object [] blobKind true []).2 ∧
    (((hash_object [] blobKind true []).2).filter
        (fun o => o.1 == (hash_object [] blobKind true []).1)).length = 1 :=
  hash_object_idempotent [] blobKind [] (by simp)

/-! ## Claim C5: prefix lookup taxonomy -/

theorem mem_objMatches (pfx : Bytes) (st : Store) (o : Bytes × Bytes)
    (h : o ∈ objMatches pfx st) :
    o ∈ st ∧ o.1.take 2 = pfx.take 2 := by
  unfold objMatches at h
  have := List.mem_filter.mp h
  refine ⟨this.1, ?_⟩
  have h2 := this.2
  simp only [Bool.and_eq_true, beq_iff_eq] at h2
  exact h2.1

theorem shardExists_of_match (pfx : Bytes) (st : Store) (o : Bytes × Bytes)
    (h : o ∈ objMatches pfx st) : shardExists st (pfx.take 2) = true := by
  obtain ⟨hmem, htake⟩ := mem_objMatches pfx st o h
  unfold shardExists
  rw [List.any_eq_true]
  exact ⟨o, hmem, by simp [htake]⟩

theorem read_object_fullData (pfx : Bytes) (st : Store) (o : Bytes × Bytes)
    (k payload : Bytes)
    (hfind : find_object pfx st = .ok o) (ho : o.2 = fullData k payload)
    (hk : k ≠ []) (hk0 : ∀ b ∈ k, b ≠ 0) (hkw : ∀ b ∈ k, isWs b = false) :
    read_object pfx st = .ok (k, payload) := by
  have hhead : ∀ b ∈ k ++ 32 :: decBytes payload.length, b ≠ 0 := by
    intro b hb
    rcases List.mem_append.mp hb with hb | hb
    · exact hk0 b hb
    · rcases List.mem_cons.mp hb with rfl | hb
      · omega
      · have := mem_decBytes _ b hb
        omega
  have hsplit : fullData k payload =
      (k ++ 32 :: decBytes payload.length) ++ 0 :: payload := by
    simp [fullData]
  have hfind2 : findNul (fullData k payload) =
      some (k ++ 32 :: decBytes payload.length).length := by
    rw [hsplit]
    exact findNul_append _ _ hhead
  unfold read_object
  rw [hfind]
  dsimp only
  rw [ho, hfind2]
  dsimp only
  have htake : (fullData k payload).take
      (k ++ 32 :: decBytes payload.length).length =
      k ++ 32 :: decBytes payload.length := by
    rw [hsplit]
    exact List.take_left _ _
  rw [htake, splitWs_two k (decBytes payload.length) hk
    (decBytes_ne_nil _) hkw
    (by
      intro c hc
      have := mem_decBytes _ c hc
      simp only [isWs, Bool.or_eq_false_iff, beq_eq_false_iff_ne]
      omega)]
  dsimp only
  rw [parseDec_decBytes]
  dsimp only
  have hdrop : (fullData k payload).drop
      ((k ++ 32 :: decBytes payload.length).length + 1) = payload := by
    have hsplit2 : fullData k payload =
        ((k ++ 32 :: decBytes payload.length) ++ [0]) ++ payload := by
      simp [fullData]
    rw [hsplit2]
    have hlen : ((k ++ 32 :: decBytes payload.length) ++ [0]).length =
        (k ++ 32 :: decBytes payload.length).length + 1 := by
      simp
      omega
    rw [← hlen]
    exact List.drop_left _ _
  rw [hdrop]
  simp

/-- Amended claim C5: read_object fails with InvalidPrefix when the prefix is
shorter than 2 characters; when the prefix selects a shard directory that was
never created (no stored object shares its first two characters) the listing
of the missing directory fails with the OS file-not-found error, not the
NotFound lookup error; when the shard directory exists but no stored object
matches the prefix it fails with NotFound; when two or more objects match it
fails with AmbiguousPrefix; and when exactly one object matches it returns
that object's kind and payload. -/
theorem read_object_taxonomy (pfx : Bytes) (st : Store) (hwf : StoreWF st) :
    (pfx.length < 2 → read_object pfx st = .error .invalidPfx) ∧
    (2 ≤ pfx.length → shardExists st (pfx.take 2) = false →
      read_object pfx st = .error .fsNotFound) ∧
    (2 ≤ pfx.length → shardExists st (pfx.take 2) = true →
      objMatches pfx st = [] → read_object pfx st = .error .notFound) ∧
    (2 ≤ pfx.length → 2 ≤ (objMatches pfx st).length →
      read_object pfx st = .error .ambiguousPfx) ∧
    (∀ o, 2 ≤ pfx.length → objMatches pfx st = [o] →
      ∃ k payload, o.2 = fullData k payload ∧
        read_object pfx st = .ok (k, payload)) := by
  refine ⟨?_, ?_, ?_, ?_, ?_⟩
  · intro hlen
    unfold read_object find_object
    rw [if_pos hlen]
  · intro hlen hshard
    unfold read_object find_object
    rw [if_neg (by omega), hshard]
    rfl
  · intro hlen hshard hmatch
    unfold read_object find_object
    rw [if_neg (by omega), hshard, hmatch]
    rfl
  · intro hlen hmatch
    unfold read_object find_object
    rw [if_neg (by omega)]
    match hm : objMatches pfx st with
    | [] => rw [hm] at hmatch; simp at hmatch
    | [o] => rw [hm] at hmatch; simp at hmatch
    | o1 :: o2 :: t =>
      have hsh := shardExists_of_match pfx st o1 (by rw [hm]; simp)
      rw [hsh]
      rfl
  · intro o hlen hmatch
    have homem : o ∈ st :=
      (mem_objMatches pfx st o (by rw [hmatch]; simp)).1
    obtain ⟨k, payload, hkind, ho⟩ := hwf o homem
    have hk : k ≠ [] := by rcases hkind with rfl | rfl | rfl <;> decide
    have hk0 : ∀ b ∈ k, b ≠ 0 := by
      rcases hkind with rfl | rfl | rfl <;> decide
    have hkw : ∀ b ∈ k, isWs b = false := by
      rcases hkind with rfl | rfl | rfl <;> decide
    have hfind : find_object pfx st = .ok o := by
      unfold find_object
      rw [if_neg (by omega),
        shardExists_of_match pfx st o (by rw [hmatch]; simp), hmatch]
      rfl
    exact ⟨k, payload, ho,
      read_object_fullData pfx st o k payload hfind ho hk hk0 hkw⟩

/-- Counterexample to claim C5 as stated: on an empty object store (no shard
directory exists) a two-character prefix fails with the OS missing-directory
error, not with the NotFound error the claim asserts for every zero-match
lookup. -/
theorem read_object_taxonomy_cex :
    read_object [97, 98] [] = .error .fsNotFound ∧
    read_object [97, 98] [] ≠ .error .notFound := by
  constructor
  · rfl
  · decide

/-- Witness for the amended C5 on a one-object store whose digest starts with
the hex characters ab, probed with the three-character prefix aba. -/
theorem read_object_taxonomy_witness :
    (([97, 98, 97] : Bytes).length < 2 →
      read_object [97, 98, 97] [(hexBytes (List.replicate 20 171), fullData blobKind [])] = .error .invalidPfx) ∧
    (2 ≤ ([97, 98, 97] : Bytes).length →
      shardExists [(hexBytes (List.replicate 20 171), fullData blobKind [])] (([97, 98, 97] : Bytes).take 2) = false →
      read_object [97, 98, 97] [(hexBytes (List.replicate 20 171), fullData blobKind [])] = .error .fsNotFound) ∧
    (2 ≤ ([97, 98, 97] : Bytes).length →
      shardExists [(hexBytes (List.replicate 20 171), fullData blobKind [])] (([97, 98, 97] : Bytes).take 2) = true →
      objMatches [97, 98, 97] [(hexBytes (List.replicate 20 171), fullData blobKind [])] = [] →
      read_object [97, 98, 97] [(hexBytes (List.replicate 20 171), fullData blobKind [])] = .error .notFound) ∧
    (2 ≤ ([97, 98, 97] : Bytes).length →
      2 ≤ (objMatches [97, 98, 97] [(hexBytes (List.replicate 20 171), fullData blobKind [])]).length →
      read_object [97, 98, 97] [(hexBytes (List.replicate 20 171), fullData blobKind [])] = .error .ambiguousPfx) ∧
    (∀ o, 2 ≤ ([97, 98, 97] : Bytes).length →
      objMatches [97, 98, 97] [(hexBytes (List.replicate 20 171), fullData blobKind [])] = [o] →
      ∃ k payload, o.2 = fullData k payload ∧
        read_object [97, 98, 97] [(hexBytes (List.replicate 20 171), fullData blobKind [])] = .ok (k, payload)) :=
  read_object_taxonomy [97, 98, 97]
    [(hexBytes (List.replicate 20 171), fullData blobKind [])]
    (by
      intro o ho
      rw [List.mem_singleton] at ho
      subst ho
      exact ⟨blobKind, [], Or.inl rfl, rfl⟩)

/-! ## Claim C1: index round-trip -/

theorem take4_u32 (n : Nat) (r : Bytes) : (u32 n ++ r).take 4 = u32 n := rfl

theorem drop4_u32 (n : Nat) (r : Bytes) : (u32 n ++ r).drop 4 = r := rfl

theorem take2_u16 (n : Nat) : (u16 n).take 2 = u16 n := rfl

theorem fixed20_length (b : Bytes) : (fixed20 b).length = 20 := by
  simp [fixed20]
  omega

theorem take20_fixed (b : Bytes) (r : Bytes) :
    (fixed20 b ++ r).take 20 = fixed20 b := by
  rw [show (20 : Nat) = (fixed20 b).length from (fixed20_length b).symm]
  exact List.take_left _ _

theorem drop20_fixed (b : Bytes) (r : Bytes) :
    (fixed20 b ++ r).drop 20 = r := by
  rw [show (20 : Nat) = (fixed20 b).length from (fixed20_length b).symm]
  exact List.drop_left _ _

theorem fixed20_eq (b : Bytes) (h : b.length = 20) : fixed20 b = b := by
  unfold fixed20
  rw [h, show b.take 20 = b.take b.length from by rw [h], List.take_length]
  simp

theorem entryHead_length (e : IndexEntry) : (entryHead e).length = 62 := by
  simp [entryHead, u32, u16, fixed20_length]

theorem entryLen_ge (p : Nat) : 63 + p ≤ entryLen p := by
  unfold entryLen
  omega

theorem entryLen_ge64 (p : Nat) : 64 ≤ entryLen p := by
  unfold entryLen
  omega

theorem entryBytes_length (e : IndexEntry) :
    (entryBytes e).length = entryLen e.path.length := by
  have := entryLen_ge e.path.length
  simp [entryBytes, entryHead_length]
  omega

theorem parse_fields_entryHead (e : IndexEntry) (hsha : e.sha1.length = 20)
    (hpack : entryPackOk e = true) :
    parse_fields (entryHead e) e.path = e := by
  simp only [entryPackOk, Bool.and_eq_true, decide_eq_true_eq] at hpack
  obtain ⟨⟨⟨⟨⟨⟨⟨⟨⟨⟨h1, h2⟩, h3⟩, h4⟩, h5⟩, h6⟩, h7⟩, h8⟩, h9⟩, h10⟩, h11⟩ :=
    hpack
  unfold parse_fields entryHead
  dsimp only
  simp only [List.append_assoc]
  simp only [take4_u32, drop4_u32, take20_fixed, drop20_fixed, take2_u16]
  rw [u32dec_u32 _ h1, u32dec_u32 _ h2, u32dec_u32 _ h3, u32dec_u32 _ h4,
    u32dec_u32 _ h5, u32dec_u32 _ h6, u32dec_u32 _ h7, u32dec_u32 _ h8,
    u32dec_u32 _ h9, u32dec_u32 _ h10, u16dec_u16 _ h11, fixed20_eq _ hsha]

theorem parse_entries_step (e : IndexEntry) (rest : Bytes) (f : Nat)
    (acc : List IndexEntry) (hsha : e.sha1.length = 20)
    (hpack : entryPackOk e = true) (hpne : e.path ≠ []) (hp0 : 0 ∉ e.path) :
    parse_entries (f + 1) (entryBytes e ++ rest) acc =
      parse_entries f rest (e :: acc) := by
  obtain ⟨m, hm⟩ : ∃ m, entryLen e.path.length - 62 - e.path.length = m + 1 :=
    ⟨entryLen e.path.length - 62 - e.path.length - 1, by
      have := entryLen_ge e.path.length
      omega⟩
  have hsplit : entryBytes e ++ rest =
      entryHead e ++ (e.path ++ (0 :: (List.replicate m 0 ++ rest))) := by
    unfold entryBytes
    rw [hm, List.replicate_succ]
    simp [List.append_assoc]
  have h62 : 62 < (entryBytes e ++ rest).length := by
    have h1 := entryLen_ge64 e.path.length
    have h2 := entryBytes_length e
    simp only [List.length_append]
    omega
  have hdrop62 : (entryBytes e ++ rest).drop 62 =
      e.path ++ (0 :: (List.replicate m 0 ++ rest)) := by
    rw [hsplit, show (62 : Nat) = (entryHead e).length from
      (entryHead_length e).symm]
    exact List.drop_left _ _
  have htake62 : (entryBytes e ++ rest).take 62 = entryHead e := by
    rw [hsplit, show (62 : Nat) = (entryHead e).length from
      (entryHead_length e).symm]
    exact List.take_left _ _
  have hdropLen : (entryBytes e ++ rest).drop (entryLen e.path.length) =
      rest := by
    rw [show entryLen e.path.length = (entryBytes e).length from
      (entryBytes_length e).symm]
    exact List.drop_left _ _
  simp only [parse_entries, if_pos h62]
  rw [hdrop62, htake62,
    findNul_append e.path _ (fun b hb => fun h0 => hp0 (h0 ▸ hb))]
  dsimp only
  rw [List.take_left, hdropLen, parse_fields_entryHead e hsha hpack]

theorem parse_entries_flatten :
    ∀ (E : List IndexEntry) (f : Nat) (acc : List IndexEntry),
      (∀ e ∈ E, e.sha1.length = 20 ∧ entryPackOk e = true ∧
        e.path ≠ [] ∧ 0 ∉ e.path) →
      E.length < f →
      parse_entries f ((E.map entryBytes).flatten) acc =
        .ok (acc.reverse ++ E) := by
  intro E
  induction E with
  | nil =>
    intro f acc _ hf
    cases f with
    | zero => omega
    | succ g => simp [parse_entries]
  | cons e T ih =>
    intro f acc hwf hf
    cases f with
    | zero => omega
    | succ g =>
      rw [List.map_cons, List.flatten_cons]
      obtain ⟨w1, w2, w3, w4⟩ := hwf e (by simp)
      rw [parse_entries_step e _ g acc w1 w2 w3 w4]
      rw [ih g (e :: acc) (fun x hx => hwf x (by simp [hx]))
        (by simp at hf ⊢; omega)]
      simp

theorem length_le_flatten (E : List IndexEntry) :
    E.length ≤ ((E.map entryBytes).flatten).length := by
  induction E with
  | nil => simp
  | cons e T ih =>
    rw [List.map_cons, List.flatten_cons]
    have h1 := entryBytes_length e
    have h2 := entryLen_ge64 e.path.length
    simp only [List.length_append, List.length_cons]
    omega

/-- Claim C1: for every entry sequence sorted by path whose numeric fields
fit their fixed-width encodings (expressed by write_index succeeding, which
is exactly the struct.pack range check), whose sha1 fields are exactly 20
bytes, and whose paths are non-empty byte strings free of NUL with encoded
length below 4096, writing the index and reading it back returns exactly the
same entries in the same order. -/
theorem index_roundtrip (E : List IndexEntry) (data : Bytes)
    (hsorted : List.Pairwise entryLe E)
    (hwf : ∀ e ∈ E, e.sha1.length = 20 ∧ (∀ b ∈ e.sha1, b < 256) ∧
      e.path ≠ [] ∧ 0 ∉ e.path ∧ e.path.length < 4096 ∧ ∀ b ∈ e.path, b < 256)
    (hok : write_index E = .ok data) :
    read_index data = .ok E := by
  unfold write_index at hok
  split at hok
  case isFalse => exact absurd hok (by simp)
  case isTrue hcond =>
    rw [Bool.and_eq_true, decide_eq_true_eq] at hcond
    obtain ⟨hall, hcount⟩ := hcond
    have hdata : write_index_data E = data := by
      injection hok
    unfold write_index_data at hdata
    dsimp only at hdata
    set B := (E.map entryBytes).flatten with hB
    set A := dircSig ++ u32 2 ++ u32 E.length ++ B with hA
    have hAlen : A.length = 12 + B.length := by
      simp [hA, dircSig, u32]
      omega
    have hdlen : data.length = A.length + 20 := by
      rw [← hdata]
      simp [sha1_length]
    have htakeA : data.take (data.length - 20) = A := by
      rw [← hdata, show (A ++ sha1 A).length - 20 = A.length from by
        simp [sha1_length]]
      exact List.take_left _ _
    have hdropA : data.drop (data.length - 20) = sha1 A := by
      rw [← hdata, show (A ++ sha1 A).length - 20 = A.length from by
        simp [sha1_length]]
      exact List.drop_left _ _
    have hassoc : data = dircSig ++ (u32 2 ++ (u32 E.length ++ (B ++ sha1 A))) := by
      rw [← hdata, hA]
      simp [List.append_assoc]
    have hdrop4 : data.drop 4 = u32 2 ++ (u32 E.length ++ (B ++ sha1 A)) := by
      rw [hassoc]
      rfl
    have hdrop8 : data.drop 8 = u32 E.length ++ (B ++ sha1 A) := by
      rw [hassoc]
      simp [dircSig, u32, List.drop_append]
    have hdrop12 : data.drop 12 = B ++ sha1 A := by
      rw [hassoc]
      simp [dircSig, u32, List.drop_append]
    have htake4 : data.take 4 = dircSig := by
      rw [hassoc]
      rfl
    unfold read_index
    rw [htakeA, hdropA, if_neg (by intro h; exact h rfl)]
    rw [if_neg (show ¬data.length < 12 from by omega)]
    rw [htake4, if_neg (by intro h; exact h rfl)]
    rw [hdrop4, take4_u32, u32dec_u32 2 (by norm_num),
      if_neg (by intro h; exact h rfl)]
    dsimp only
    have hED : (data.drop 12).take (data.length - 32) = B := by
      rw [hdrop12, show data.length - 32 = B.length from by omega]
      exact List.take_left _ _
    rw [hED]
    rw [parse_entries_flatten E (B.length + 1) []
      (fun e he => by
        obtain ⟨x1, _, x3, x4, _, _⟩ := hwf e he
        exact ⟨x1, List.all_eq_true.mp hall e he, x3, x4⟩)
      (by
        have hle := length_le_flatten E
        rw [← hB] at hle
        omega)]
    rw [hdrop8, take4_u32, u32dec_u32 E.length hcount]
    simp

set_option maxRecDepth 100000 in
/-- Witness for C1 at the one-entry index wE. -/
theorem index_roundtrip_witness : read_index wData = .ok wE :=
  index_roundtrip wE wData (by decide) (by decide) (by decide)

/-! ## Claims C3 and C4: tree codec -/

theorem read_tree_go_step (t : TreeIn) (rest : Bytes) (f : Nat)
    (acc : List TreeOut) (hpne : t.path ≠ []) (hp0 : 0 ∉ t.path)
    (hpw : ∀ b ∈ t.path, isWs b = false) (hsha : t.sha1.length = 20) :
    read_tree_go (f + 1) (treeRecBytes t ++ rest) acc =
      read_tree_go f rest (treeDec t :: acc) := by
  set H := octBytes t.mode ++ 32 :: t.path with hH
  have hH0 : ∀ b ∈ H, b ≠ 0 := by
    intro b hb
    rw [hH] at hb
    rcases List.mem_append.mp hb with hb | hb
    · have := mem_octBytes t.mode b hb
      omega
    · rcases List.mem_cons.mp hb with rfl | hb
      · omega
      · intro h0
        exact hp0 (h0 ▸ hb)
  have hsplit : treeRecBytes t ++ rest = H ++ 0 :: (t.sha1 ++ rest) := by
    simp [treeRecBytes, hH, List.append_assoc]
  have hfind : findNul (treeRecBytes t ++ rest) = some H.length := by
    rw [hsplit]
    exact findNul_append _ _ hH0
  have htake : (treeRecBytes t ++ rest).take H.length = H := by
    rw [hsplit]
    exact List.take_left _ _
  have hspl : splitWs H = [octBytes t.mode, t.path] := by
    rw [hH]
    exact splitWs_two _ _ (octBytes_ne_nil _) hpne
      (fun c hc => by
        have := mem_octBytes t.mode c hc
        simp only [isWs, Bool.or_eq_false_iff, beq_eq_false_iff_ne]
        omega)
      hpw
  have hdrop1 : (treeRecBytes t ++ rest).drop (H.length + 1) =
      t.sha1 ++ rest := by
    have hs : treeRecBytes t ++ rest = (H ++ [0]) ++ (t.sha1 ++ rest) := by
      simp [treeRecBytes, hH, List.append_assoc]
    rw [hs, show H.length + 1 = (H ++ [0]).length from by simp]
    exact List.drop_left _ _
  have hdrop2 : (treeRecBytes t ++ rest).drop (H.length + 1 + 20) = rest := by
    have hs : treeRecBytes t ++ rest = (H ++ 0 :: t.sha1) ++ rest := by
      simp [treeRecBytes, hH, List.append_assoc]
    rw [hs, show H.length + 1 + 20 = (H ++ 0 :: t.sha1).length from by
      simp [hsha]]
    exact List.drop_left _ _
  simp only [read_tree_go]
  rw [hfind]
  dsimp only
  rw [htake, hspl]
  dsimp only
  rw [parseOct_octBytes]
  dsimp only
  rw [hdrop1, hdrop2,
    show (t.sha1 ++ rest).take 20 = t.sha1 from by
      rw [← hsha]; exact List.take_left _ _]
  rfl

theorem read_tree_go_all :
    ∀ (T : List TreeIn) (f : Nat) (acc : List TreeOut),
      (∀ t ∈ T, t.path ≠ [] ∧ 0 ∉ t.path ∧ (∀ b ∈ t.path, isWs b = false) ∧
        t.sha1.length = 20) →
      T.length ≤ f →
      read_tree_go f ((T.map treeRecBytes).flatten) acc =
        .ok (acc.reverse ++ T.map treeDec) := by
  intro T
  induction T with
  | nil =>
    intro f acc _ _
    cases f with
    | zero => simp [read_tree_go]
    | succ g => simp [read_tree_go, findNul]
  | cons t R ih =>
    intro f acc hwf hf
    cases f with
    | zero => simp at hf
    | succ g =>
      rw [List.map_cons, List.flatten_cons]
      obtain ⟨w1, w2, w3, w4⟩ := hwf t (by simp)
      rw [read_tree_go_step t _ g acc w1 w2 w3 w4]
      rw [ih g (treeDec t :: acc) (fun x hx => hwf x (by simp [hx]))
        (by simp at hf ⊢; omega)]
      simp

theorem read_tree_go_cap :
    ∀ (f : Nat) (T : List TreeIn) (acc : List TreeOut),
      (∀ t ∈ T, t.path ≠ [] ∧ 0 ∉ t.path ∧ (∀ b ∈ t.path, isWs b = false) ∧
        t.sha1.length = 20) →
      f ≤ T.length →
      read_tree_go f ((T.map treeRecBytes).flatten) acc =
        .ok (acc.reverse ++ (T.take f).map treeDec) := by
  intro f
  induction f with
  | zero => intro T acc _ _; simp [read_tree_go]
  | succ g ih =>
    intro T acc hwf hf
    cases T with
    | nil => simp at hf
    | cons t R =>
      rw [List.map_cons, List.flatten_cons]
      obtain ⟨w1, w2, w3, w4⟩ := hwf t (by simp)
      rw [read_tree_go_step t _ g acc w1 w2 w3 w4]
      rw [ih R (treeDec t :: acc) (fun x hx => hwf x (by simp [hx]))
        (by simp at hf ⊢; omega)]
      simp

/-- Amended claim C3: for every sequence of at most 1000 triples whose paths
are non-empty ASCII strings containing no directory separator, no NUL byte
and no whitespace, and whose digests are 20 bytes, serialising the way
write_tree does and decoding with read_tree yields exactly the input triples
(digests returned in hex). -/
theorem tree_roundtrip (T : List TreeIn) (hlen : T.length ≤ 1000)
    (hwf : ∀ t ∈ T, t.path ≠ [] ∧ 47 ∉ t.path ∧ 0 ∉ t.path ∧
      (∀ b ∈ t.path, b < 128 ∧ isWs b = false) ∧ t.sha1.length = 20) :
    read_tree (write_tree_payload T) = .ok (T.map treeDec) := by
  unfold read_tree write_tree_payload
  rw [read_tree_go_all T 1000 []
    (fun t ht => by
      obtain ⟨x1, _, x3, x4, x5⟩ := hwf t ht
      exact ⟨x1, x3, fun b hb => (x4 b hb).2, x5⟩)
    hlen]
  simp

/-- Counterexample to claim C3 as stated: a flat path containing a space
serialises fine but read_tree fails with ValueError while unpacking the
header (three tokens instead of two), so the round trip does not return the
input triples. -/
theorem tree_roundtrip_cex :
    read_tree (write_tree_payload [tBad]) = .error .valueErr ∧
    read_tree (write_tree_payload [tBad]) ≠ .ok ([tBad].map treeDec) := by
  constructor
  · decide
  · decide

/-- Witness for the amended C3 at a single well-formed entry. -/
theorem tree_roundtrip_witness :
    read_tree (write_tree_payload [tGood]) = .ok ([tGood].map treeDec) :=
  tree_roundtrip [tGood] (by decide) (by decide)

/-- Amended claim C4: when the payload holds more well-formed records than
the 1000-iteration cap, read_tree silently returns the first 1000 decoded
entries; no error of any kind is raised. -/
theorem tree_cap_truncates (T : List TreeIn) (hlen : 1000 < T.length)
    (hwf : ∀ t ∈ T, t.path ≠ [] ∧ 0 ∉ t.path ∧
      (∀ b ∈ t.path, isWs b = false) ∧ t.sha1.length = 20) :
    read_tree (write_tree_payload T) = .ok ((T.take 1000).map treeDec) := by
  unfold read_tree write_tree_payload
  rw [read_tree_go_cap 1000 T [] hwf (by omega)]
  simp

/-- Counterexample to claim C4 as stated: a payload of 1001 well-formed
records makes read_tree return the first 1000 entries with no error, rather
than failing with a corrupt-tree error. -/
theorem tree_cap_cex :
    read_tree (write_tree_payload (List.replicate 1001 capRec)) =
      .ok (List.replicate 1000 (treeDec capRec)) := by
  unfold read_tree write_tree_payload
  rw [read_tree_go_cap 1000 (List.replicate 1001 capRec) []
    (fun t ht => by rw [List.eq_of_mem_replicate ht]; decide)
    (by rw [List.length_replicate]; omega)]
  rw [List.take_replicate, List.map_replicate,
    show min 1000 1001 = 1000 from rfl]
  simp only [List.reverse_nil, List.nil_append]

/-- Witness for the amended C4 at 1001 replicated records. -/
theorem tree_cap_truncates_witness :
    read_tree (write_tree_payload (List.replicate 1001 capRec)) =
      .ok (((List.replicate 1001 capRec).take 1000).map treeDec) :=
  tree_cap_truncates (List.replicate 1001 capRec)
    (by rw [List.length_replicate]; omega)
    (fun t ht => by rw [List.eq_of_mem_replicate ht]; decide)

/-! ## Claim C7: status classification -/

theorem status_changed_cons (wd : WorkDir) (idx : List IndexEntry)
    (q : Bytes) (ps : List Bytes) (s : Store) :
    status_changed wd idx (q :: ps) s =
      (match idxLookup idx q with
       | some e =>
         if sha1Hex (fullData blobKind ((wdLookup wd q).getD [])) ≠
             hexBytes e.sha1
         then (q :: (status_changed wd idx ps s).1,
           (status_changed wd idx ps s).2)
         else status_changed wd idx ps s
       | none => status_changed wd idx ps s) := by
  simp only [status_changed, hash_object_false]

theorem status_changed_store (wd : WorkDir) (idx : List IndexEntry) :
    ∀ (ps : List Bytes) (s : Store), (status_changed wd idx ps s).2 = s := by
  intro ps
  induction ps with
  | nil => intro s; rfl
  | cons q ps ih =>
    intro s
    rw [status_changed_cons]
    cases idxLookup idx q with
    | none => exact ih s
    | some e =>
      dsimp only
      split
      · exact ih s
      · exact ih s

theorem mem_status_changed (wd : WorkDir) (idx : List IndexEntry) :
    ∀ (ps : List Bytes) (s : Store) (p : Bytes),
      (p ∈ (status_changed wd idx ps s).1 ↔
        p ∈ ps ∧ ∃ e, idxLookup idx p = some e ∧
          sha1Hex (fullData blobKind ((wdLookup wd p).getD [])) ≠
            hexBytes e.sha1) := by
  intro ps
  induction ps with
  | nil => intro s p; simp [status_changed]
  | cons q ps ih =>
    intro s p
    rw [status_changed_cons]
    cases hl : idxLookup idx q with
    | none =>
      dsimp only
      rw [ih s p]
      constructor
      · rintro ⟨hp, he⟩
        exact ⟨by simp [hp], he⟩
      · rintro ⟨hp, e, he, hne⟩
        rcases List.mem_cons.mp hp with rfl | hp
        · rw [hl] at he
          exact absurd he (by simp)
        · exact ⟨hp, e, he, hne⟩
    | some e0 =>
      dsimp only
      by_cases hne : sha1Hex (fullData blobKind ((wdLookup wd q).getD [])) ≠
          hexBytes e0.sha1
      · rw [if_pos hne]
        simp only [List.mem_cons]
        constructor
        · rintro (rfl | hp)
          · exact ⟨Or.inl rfl, e0, hl, hne⟩
          · obtain ⟨hp2, he⟩ := (ih s p).mp hp
            exact ⟨Or.inr hp2, he⟩
        · rintro ⟨rfl | hp, e, he, hne2⟩
          · left; rfl
          · right; exact (ih s p).mpr ⟨hp, e, he, hne2⟩
      · rw [if_neg hne]
        rw [ih s p]
        constructor
        · rintro ⟨hp, he⟩
          exact ⟨by simp [hp], he⟩
        · rintro ⟨hp, e, he, hne2⟩
          rcases List.mem_cons.mp hp with rfl | hp
          · rw [hl] at he
            injection he with he
            subst he
            exact absurd hne2 (by simpa using hne)
          · exact ⟨hp, e, he, hne2⟩

theorem idxLookup_mem (idx : List IndexEntry) (p : Bytes) (e : IndexEntry)
    (h : idxLookup idx p = some e) : e ∈ idx ∧ e.path = p := by
  unfold idxLookup at h
  refine ⟨List.mem_of_find?_eq_some h, ?_⟩
  have h2 := List.find?_some h
  simpa using h2

theorem idxLookup_isSome (idx : List IndexEntry) (p : Bytes)
    (hp : p ∈ idx.map IndexEntry.path) : ∃ e, idxLookup idx p = some e := by
  obtain ⟨e, he, rfl⟩ := List.mem_map.mp hp
  unfold idxLookup
  have : (idx.find? (fun x => x.path == e.path)).isSome :=
    List.find?_isSome.mpr ⟨e, he, by simp⟩
  exact Option.isSome_iff_exists.mp this

theorem get_status_entries_fst (wd : WorkDir) (idx : List IndexEntry)
    (s : Store) :
    (get_status_entries wd idx s).1 =
      (sortB (status_changed wd idx
          ((wd.map (·.1)).filter (idx.map IndexEntry.path).contains) s).1,
       sortB ((wd.map (·.1)).filter
          (fun p => !(idx.map IndexEntry.path).contains p)),
       sortB ((idx.map IndexEntry.path).filter
          (fun p => !(wd.map (·.1)).contains p))) := rfl

/-- Claim C7: get_status classifies exactly — changed holds the paths present
in both the working directory and the index whose recomputed live blob digest
differs from the recorded digest, new holds the live-only paths, deleted the
index-only paths, and all three are sorted. -/
theorem get_status_classification (wd : WorkDir) (idx : List IndexEntry)
    (s : Store) (hwd : (wd.map Prod.fst).Nodup)
    (hidx : (idx.map IndexEntry.path).Nodup) :
    List.Sorted bytesLeP (get_status_entries wd idx s).1.1 ∧
    List.Sorted bytesLeP (get_status_entries wd idx s).1.2.1 ∧
    List.Sorted bytesLeP (get_status_entries wd idx s).1.2.2 ∧
    (∀ p, p ∈ (get_status_entries wd idx s).1.1 ↔
      p ∈ wd.map Prod.fst ∧ p ∈ idx.map IndexEntry.path ∧
      ∀ e ∈ idx, e.path = p →
        sha1Hex (fullData blobKind ((wdLookup wd p).getD [])) ≠
          hexBytes e.sha1) ∧
    (∀ p, p ∈ (get_status_entries wd idx s).1.2.1 ↔
      p ∈ wd.map Prod.fst ∧ p ∉ idx.map IndexEntry.path) ∧
    (∀ p, p ∈ (get_status_entries wd idx s).1.2.2 ↔
      p ∈ idx.map IndexEntry.path ∧ p ∉ wd.map Prod.fst) := by
  rw [get_status_entries_fst]
  simp only [sortB]
  refine ⟨List.sorted_insertionSort bytesLeP _,
    List.sorted_insertionSort bytesLeP _,
    List.sorted_insertionSort bytesLeP _, ?_, ?_, ?_⟩
  · intro p
    rw [List.mem_insertionSort, mem_status_changed, List.mem_filter]
    constructor
    · rintro ⟨⟨hp, hcont⟩, e, he, hne⟩
      have hpe : p ∈ idx.map IndexEntry.path := by simpa using hcont
      refine ⟨hp, hpe, ?_⟩
      intro e2 he2 hpath
      obtain ⟨hem, hep⟩ := idxLookup_mem idx p e he
      have : e2 = e :=
        List.inj_on_of_nodup_map hidx he2 hem (by rw [hpath, hep])
      rw [this]
      exact hne
    · rintro ⟨hp, hpe, hall⟩
      obtain ⟨e, he⟩ := idxLookup_isSome idx p hpe
      obtain ⟨hem, hep⟩ := idxLookup_mem idx p e he
      exact ⟨⟨hp, by simpa using hpe⟩, e, he, hall e hem hep⟩
  · intro p
    rw [List.mem_insertionSort, List.mem_filter]
    simp
  · intro p
    rw [List.mem_insertionSort, List.mem_filter]
    simp

set_option maxRecDepth 100000 in
/-- Witness for C7 at a working directory holding paths a and b and an index
tracking a (content unchanged) and c (absent from disk). -/
theorem get_status_classification_witness :
    List.Sorted bytesLeP (get_status_entries wdDemo idxDemo []).1.1 ∧
    List.Sorted bytesLeP (get_status_entries wdDemo idxDemo []).1.2.1 ∧
    List.Sorted bytesLeP (get_status_entries wdDemo idxDemo []).1.2.2 ∧
    (∀ p, p ∈ (get_status_entries wdDemo idxDemo []).1.1 ↔
      p ∈ wdDemo.map Prod.fst ∧ p ∈ idxDemo.map IndexEntry.path ∧
      ∀ e ∈ idxDemo, e.path = p →
        sha1Hex (fullData blobKind ((wdLookup wdDemo p).getD [])) ≠
          hexBytes e.sha1) ∧
    (∀ p, p ∈ (get_status_entries wdDemo idxDemo []).1.2.1 ↔
      p ∈ wdDemo.map Prod.fst ∧ p ∉ idxDemo.map IndexEntry.path) ∧
    (∀ p, p ∈ (get_status_entries wdDemo idxDemo []).1.2.2 ↔
      p ∈ idxDemo.map IndexEntry.path ∧ p ∉ wdDemo.map Prod.fst) :=
  get_status_classification wdDemo idxDemo [] (by decide) (by decide)

/-! ## Claim C10: get_status and diff modify no repository state -/

theorem get_status_entries_snd (wd : WorkDir) (idx : List IndexEntry)
    (s : Store) : (get_status_entries wd idx s).2 = s := by
  unfold get_status_entries
  exact status_changed_store wd idx _ s

theorem diff_loop_store (wd : WorkDir) (idx : List IndexEntry) :
    ∀ (ps : List Bytes) (s : Store) (r : List (Bytes × Bytes × Bytes) × Store),
      diff_loop wd idx ps s = .ok r → r.2 = s := by
  intro ps
  induction ps with
  | nil =>
    intro s r h
    unfold diff_loop at h
    injection h with h
    rw [← h]
  | cons p ps ih =>
    intro s r h
    unfold diff_loop at h
    cases hro : read_object
        (hexBytes (((idxLookup idx p).map (·.sha1)).getD [])) s with
    | error e => rw [hro] at h; exact absurd h (by simp)
    | ok td =>
      rw [hro] at h
      dsimp only at h
      split at h
      · cases hdl : diff_loop wd idx ps s with
        | error e => rw [hdl] at h; exact absurd h (by simp)
        | ok r2 =>
          rw [hdl] at h
          dsimp only at h
          injection h with h
          rw [← h]
          exact ih s r2 hdl
      · exact absurd h (by simp)

theorem get_status_state (wd : WorkDir) (st : RepoState)
    (r : (List Bytes × List Bytes × List Bytes) × RepoState)
    (h : get_status wd st = .ok r) : r.2 = st := by
  unfold get_status at h
  cases hi : read_index_file st.indexFile with
  | error e => rw [hi] at h; exact absurd h (by simp)
  | ok idx =>
    rw [hi] at h
    dsimp only at h
    injection h with h
    rw [← h]
    dsimp only
    rw [get_status_entries_snd]

/-- Claim C10: neither get_status nor diff modifies any persistent state —
whenever either operation returns, the repository state it returns (object
store, index file and ref file) is exactly the input state; live digests are
recomputed with the persist flag disabled and create no object files. -/
theorem status_diff_readonly (wd : WorkDir) (st : RepoState) :
    statePost (get_status wd st) st = st ∧ statePost (diff wd st) st = st := by
  constructor
  · cases hg : get_status wd st with
    | error e => rfl
    | ok r => exact get_status_state wd st r hg
  · unfold diff
    cases hg : get_status wd st with
    | error e => rfl
    | ok r1 =>
      dsimp only
      have hr1 : r1.2 = st := get_status_state wd st r1 hg
      cases hi : read_index_file r1.2.indexFile with
      | error e => rfl
      | ok idx =>
        dsimp only
        cases hdl : diff_loop wd idx r1.1.1 r1.2.store with
        | error e => rfl
        | ok r2 =>
          dsimp only [statePost]
          have := diff_loop_store wd idx r1.1.1 r1.2.store r2 hdl
          rw [this, ← hr1]

/-! ## Claim C9: index invariants preserved by add -/

theorem add_loop_ok (wd : WorkDir) (statOf : Bytes → StatData) :
    ∀ (ps : List Bytes) (s : Store) (r : List IndexEntry × Store),
      add_loop wd statOf ps s = .ok r →
      r.1.map IndexEntry.path = ps ∧ ∀ e ∈ r.1, e.path.length < 2 ^ 12 := by
  intro ps
  induction ps with
  | nil =>
    intro s r h
    unfold add_loop at h
    injection h with h
    rw [← h]
    exact ⟨rfl, by simp⟩
  | cons p ps ih =>
    intro s r h
    unfold add_loop at h
    cases hwl : wdLookup wd p with
    | none => rw [hwl] at h; exact absurd h (by simp)
    | some content =>
      rw [hwl] at h
      dsimp only at h
      split at h
      case isTrue hplen =>
        cases hal : add_loop wd statOf ps
            (hash_object content blobKind true s).2 with
        | error e => rw [hal] at h; exact absurd h (by simp)
        | ok r2 =>
          rw [hal] at h
          dsimp only at h
          injection h with h
          obtain ⟨hmap, hlen⟩ := ih _ r2 hal
          rw [← h]
          constructor
          · simp [mkEntry, hmap]
          · intro e he
            rcases List.mem_cons.mp he with rfl | he
            · exact hplen
            · exact hlen e he
      case isFalse => exact absurd h (by simp)

/-- Amended claim C9: for every duplicate-free list of existing
working-directory paths (after backslash normalisation) and every starting
index whose entries are sorted by path, have unique paths, and have encoded
path lengths below 4096, a successful add leaves the written index sorted by
path, with at most one entry per path, with every encoded path length below
4096, and with every entry at a non-added path taken unchanged from the
starting index (entries at added paths having been replaced). -/
theorem add_invariants (wd : WorkDir) (statOf : Bytes → StatData)
    (paths : List Bytes) (idx : List IndexEntry) (s : Store)
    (E : List IndexEntry) (fileData : Bytes) (s2 : Store)
    (hsorted : List.Pairwise entryLe idx)
    (hnodup : (idx.map IndexEntry.path).Nodup)
    (hlen : ∀ e ∈ idx, e.path.length < 4096)
    (hpn : (paths.map normPath).Nodup)
    (hok : add wd statOf paths idx s = .ok (E, fileData, s2)) :
    List.Sorted entryLe E ∧ (E.map IndexEntry.path).Nodup ∧
    (∀ e ∈ E, e.path.length < 4096) ∧
    (∀ e ∈ E, e.path ∉ paths.map normPath → e ∈ idx) := by
  unfold add at hok
  dsimp only at hok
  cases hal : add_loop wd statOf (paths.map normPath) s with
  | error e => rw [hal] at hok; exact absurd hok (by simp)
  | ok r =>
    rw [hal] at hok
    dsimp only at hok
    cases hwi : write_index (List.insertionSort entryLe
        (idx.filter (fun e => !(paths.map normPath).contains e.path) ++ r.1)) with
    | error e => rw [hwi] at hok; exact absurd hok (by simp)
    | ok fd =>
      rw [hwi] at hok
      dsimp only at hok
      injection hok with hok
      rw [Prod.mk.injEq, Prod.mk.injEq] at hok
      obtain ⟨hE, -, -⟩ := hok
      obtain ⟨hmap, hsmall⟩ := add_loop_ok wd statOf _ s r hal
      have hperm : List.Perm (List.insertionSort entryLe
          (idx.filter (fun e => !(paths.map normPath).contains e.path) ++ r.1))
          (idx.filter (fun e => !(paths.map normPath).contains e.path) ++ r.1) :=
        List.perm_insertionSort entryLe _
      refine ⟨?_, ?_, ?_, ?_⟩
      · rw [← hE]
        exact List.sorted_insertionSort entryLe _
      · rw [← hE]
        refine (List.Perm.nodup_iff (List.Perm.map IndexEntry.path hperm)).mpr ?_
        rw [List.map_append, hmap]
        rw [List.nodup_append]
        refine ⟨?_, hpn, ?_⟩
        · exact List.Nodup.sublist
            (List.Sublist.map IndexEntry.path (List.filter_sublist idx)) hnodup
        · intro x hx
          obtain ⟨e, he, rfl⟩ := List.mem_map.mp hx
          have := (List.mem_filter.mp he).2
          simpa using this
      · intro e he
        rw [← hE] at he
        rw [List.mem_insertionSort] at he
        rcases List.mem_append.mp he with he | he
        · exact hlen e (List.mem_filter.mp he).1
        · have h1 := hsmall e he
          omega
      · intro e he hnp
        rw [← hE] at he
        rw [List.mem_insertionSort] at he
        rcases List.mem_append.mp he with he | he
        · exact (List.mem_filter.mp he).1
        · exact absurd (hmap ▸ List.mem_map_of_mem IndexEntry.path he) hnp

set_option maxRecDepth 100000 in
/-- Counterexample to claim C9 as stated: with the duplicated path list
containing b twice and a (sorted, duplicate-free) starting index holding one
entry with a 4096-byte path, add succeeds and writes an index whose path
sequence repeats b and retains the over-long path, violating both the
at-most-one-entry-per-path and the below-4096 clauses. -/
theorem add_invariants_cex :
    ((add addWd statZero [[98], [98]] addIdxLong []).toOption.map
      (fun r => r.1.map IndexEntry.path)) =
      some [List.replicate 4096 97, [98], [98]] ∧
    ¬ ([List.replicate 4096 97, ([98] : Bytes), [98]] : List Bytes).Nodup ∧
    ¬ (List.replicate 4096 97 : Bytes).length < 4096 := by
  refine ⟨rfl, ?_, ?_⟩
  · intro h
    rcases List.nodup_cons.mp h with ⟨-, h2⟩
    rcases List.nodup_cons.mp h2 with ⟨hn, -⟩
    exact hn (by simp)
  · rw [List.length_replicate]
    omega

set_option maxRecDepth 100000 in
/-- Witness for the amended C9: adding path b once to the one-entry index wE. -/
theorem add_invariants_witness :
    List.Sorted entryLe addRes.1 ∧ (addRes.1.map IndexEntry.path).Nodup ∧
    (∀ e ∈ addRes.1, e.path.length < 4096) ∧
    (∀ e ∈ addRes.1, e.path ∉ ([[98]] : List Bytes).map normPath →
      e ∈ wE) :=
  add_invariants addWd statZero [[98]] wE [] addRes.1 addRes.2.1 addRes.2.2
    (by decide) (by decide) (by decide) (by decide) (by decide)

/-! ## Claim C8: commit chaining -/

theorem write_tree_refs (st : RepoState) (t : Bytes) (st1 : RepoState)
    (h : write_tree st = .ok (t, st1)) :
    st1.ref = st.ref ∧ st1.indexFile = st.indexFile := by
  unfold write_tree at h
  cases hi : read_index_file st.indexFile with
  | error e => rw [hi] at h; exact absurd h (by simp)
  | ok idx =>
    rw [hi] at h
    dsimp only at h
    split at h
    · injection h with h
      rw [Prod.mk.injEq] at h
      rw [← h.2]
      exact ⟨rfl, rfl⟩
    · exact absurd h (by simp)

theorem commit_ok (a : CommitArgs) (st : RepoState) (d : Bytes)
    (st2 : RepoState) (h : commit a st = .ok (d, st2)) :
    ∃ t st1, write_tree st = .ok (t, st1) ∧
      d = sha1Hex (fullData commitKind (List.intercalate [10]
        (commit_lines t (get_local_master_hash st1) a))) ∧
      st2.ref = some (d ++ [10]) := by
  unfold commit at h
  cases hw : write_tree st with
  | error e => rw [hw] at h; exact absurd h (by simp)
  | ok ts =>
    rw [hw] at h
    dsimp only at h
    injection h with h
    rw [Prod.mk.injEq] at h
    obtain ⟨hd, hst⟩ := h
    refine ⟨ts.1, ts.2, ?_, ?_, ?_⟩
    · rfl
    · rw [← hd, hash_object_fst]
    · rw [← hst, ← hd]

theorem sha1Hex_not_ws (m : Bytes) (b : Nat) (hb : b ∈ sha1Hex m) :
    isWs b = false :=
  mem_hexBytes_not_ws (sha1 m) b hb

/-- Amended claim C8: in a fresh repository the first commit's payload lines
are tree line, author, committer, blank, message, blank — no parent field; a
second commit's payload additionally carries the line parent followed by the
first digest; and after every commit the branch ref file holds the returned
digest followed by a newline (the digest itself is recovered on read by
strip). -/
theorem commit_chaining (a1 a2 : CommitArgs) (st0 st1 st2 : RepoState)
    (d1 d2 : Bytes) (hfresh : st0.ref = none)
    (h1 : commit a1 st0 = .ok (d1, st1))
    (h2 : commit a2 st1 = .ok (d2, st2)) :
    st1.ref = some (d1 ++ [10]) ∧ st2.ref = some (d2 ++ [10]) ∧
    (∃ t1, d1 = sha1Hex (fullData commitKind (List.intercalate [10]
      [treeKind ++ t1, authorLit ++ authorField a1,
       committerLit ++ authorField a1, [], a1.message, []]))) ∧
    (∃ t2, d2 = sha1Hex (fullData commitKind (List.intercalate [10]
      [treeKind ++ t2, parentLit ++ d1, authorLit ++ authorField a2,
       committerLit ++ authorField a2, [], a2.message, []]))) := by
  obtain ⟨t1, s1, hw1, hd1, hr1⟩ := commit_ok a1 st0 d1 st1 h1
  obtain ⟨t2, s2x, hw2, hd2, hr2⟩ := commit_ok a2 st1 d2 st2 h2
  have hs1ref : s1.ref = none := by
    rw [(write_tree_refs st0 t1 s1 hw1).1, hfresh]
  have hparent1 : get_local_master_hash s1 = none := by
    unfold get_local_master_hash
    rw [hs1ref]
    rfl
  rw [hparent1] at hd1
  have hd1ne : d1 ≠ [] := by
    rw [hd1]
    exact sha1Hex_ne_nil _
  have hs2ref : s2x.ref = some (d1 ++ [10]) := by
    rw [(write_tree_refs st1 t2 s2x hw2).1, hr1]
  have hstrip : stripBytes (d1 ++ [10]) = d1 := by
    apply stripBytes_append_newline d1 hd1ne
    intro b hb
    rw [hd1] at hb
    exact sha1Hex_not_ws _ b hb
  have hparent2 : get_local_master_hash s2x = some d1 := by
    unfold get_local_master_hash
    rw [hs2ref]
    simp [hstrip]
  rw [hparent2] at hd2
  have hlines2 : commit_lines t2 (some d1) a2 =
      [treeKind ++ t2, parentLit ++ d1, authorLit ++ authorField a2,
       committerLit ++ authorField a2, [], a2.message, []] := by
    unfold commit_lines
    dsimp only
    rw [if_neg hd1ne]
    simp
  rw [hlines2] at hd2
  exact ⟨hr1, hr2, ⟨t1, hd1⟩, ⟨t2, hd2⟩⟩

set_option maxRecDepth 100000 in
/-- Counterexample to claim C8 as stated: after a concrete first commit on a
fresh repository the ref file holds the digest followed by a newline, so its
content does not equal the returned digest. -/
theorem commit_chaining_cex :
    commit argsDemo repoDemo = .ok (commitRes1.1, commitRes1.2) ∧
    commitRes1.2.ref ≠ some commitRes1.1 := by
  constructor
  · decide
  · decide

set_option maxRecDepth 100000 in
/-- Witness for the amended C8: two concrete commits on a fresh repository. -/
theorem commit_chaining_witness :
    commitRes1.2.ref = some (commitRes1.1 ++ [10]) ∧
    commitRes2.2.ref = some (commitRes2.1 ++ [10]) ∧
    (∃ t1, commitRes1.1 = sha1Hex (fullData commitKind (List.intercalate [10]
      [treeKind ++ t1, authorLit ++ authorField argsDemo,
       committerLit ++ authorField argsDemo, [], argsDemo.message, []]))) ∧
    (∃ t2, commitRes2.1 = sha1Hex (fullData commitKind (List.intercalate [10]
      [treeKind ++ t2, parentLit ++ commitRes1.1,
       authorLit ++ authorField argsDemo,
       committerLit ++ authorField argsDemo, [], argsDemo.message, []]))) :=
  commit_chaining argsDemo argsDemo repoDemo commitRes1.2 commitRes2.2
    commitRes1.1 commitRes2.1 rfl (by decide) (by decide)
